import Mathlib

/-!
Verification development for the PinBackend media-extraction core
(`src/utils/pinterest.js`, `src/utils/playwrightExtractor.js`).

JavaScript values produced by `JSON.parse` are modelled by the inductive
type `JValue` (a tagged union of null / bool / number / string / array /
object, as in spec section 9).  Objects are association lists in insertion
order, which is the iteration order of `Object.values` and of `for ... in`
for the non-numeric keys Pinterest uses.  `JSON.parse` output never
contains duplicate keys (the last binding wins during parsing), never
contains reference cycles, and never contains `undefined`; absent fields
are modelled with `Option`.

Conventions, stated once and used throughout:
* JavaScript truthiness is `isTruthy` below; `undefined` is the `none`
  of an `Option JValue`.
* Numbers are modelled as `Int`; the sources never do arithmetic on
  payload numbers, they only test truthiness.
* `jsToLowerL` / `jsTrim` model `toLowerCase()` / `trim()` on the ASCII
  range (the sources only meet ASCII urls and whitespace here).
* Where the source calls a string method on an `url` field
  (`entry.url.includes(...)`, `thumbnail.toLowerCase()`), a non-string
  truthy value would raise a `TypeError` in JavaScript.  The data model
  (spec section 3) types every `url` as a string, so the theorems below
  carry explicit well-typedness hypotheses (`urlTyped`, `PinWf`) scoping
  them to that universe; on it the definitions agree with the source.
-/

inductive JValue where
  | null : JValue
  | bool : Bool → JValue
  | num : Int → JValue
  | str : String → JValue
  | arr : List JValue → JValue
  | obj : List (String × JValue) → JValue

namespace Pin

mutual

/-- Boolean equality on `JValue` (the derive handler does not support
this nested inductive). -/
def jbeq : JValue → JValue → Bool
  | .null, .null => true
  | .bool a, .bool b => a == b
  | .num a, .num b => a == b
  | .str a, .str b => a == b
  | .arr xs, .arr ys => jbeqL xs ys
  | .obj xs, .obj ys => jbeqF xs ys
  | _, _ => false

/-- Boolean equality on lists of `JValue`. -/
def jbeqL : List JValue → List JValue → Bool
  | [], [] => true
  | x :: xs, y :: ys => jbeq x y && jbeqL xs ys
  | _, _ => false

/-- Boolean equality on field lists. -/
def jbeqF : List (String × JValue) → List (String × JValue) → Bool
  | [], [] => true
  | (k, x) :: xs, (l, y) :: ys => k == l && jbeq x y && jbeqF xs ys
  | _, _ => false

end

mutual

/-- Soundness and completeness of `jbeq`. -/
def jbeq_iff : (a b : JValue) → (jbeq a b = true ↔ a = b)
  | .null, .null => by simp [jbeq]
  | .bool a, .bool b => by simp [jbeq]
  | .num a, .num b => by simp [jbeq]
  | .str a, .str b => by simp [jbeq]
  | .arr xs, .arr ys => by simp [jbeq, jbeqL_iff xs ys]
  | .obj xs, .obj ys => by simp [jbeq, jbeqF_iff xs ys]
  | .null, .bool _ | .null, .num _ | .null, .str _ | .null, .arr _ | .null, .obj _
  | .bool _, .null | .bool _, .num _ | .bool _, .str _ | .bool _, .arr _ | .bool _, .obj _
  | .num _, .null | .num _, .bool _ | .num _, .str _ | .num _, .arr _ | .num _, .obj _
  | .str _, .null | .str _, .bool _ | .str _, .num _ | .str _, .arr _ | .str _, .obj _
  | .arr _, .null | .arr _, .bool _ | .arr _, .num _ | .arr _, .str _ | .arr _, .obj _
  | .obj _, .null | .obj _, .bool _ | .obj _, .num _ | .obj _, .str _ | .obj _, .arr _ =>
    by simp [jbeq]

/-- Soundness and completeness of `jbeqL`. -/
def jbeqL_iff : (xs ys : List JValue) → (jbeqL xs ys = true ↔ xs = ys)
  | [], [] => by simp [jbeqL]
  | x :: xs, y :: ys => by
    simp [jbeqL, jbeq_iff x y, jbeqL_iff xs ys]
  | [], _ :: _ => by simp [jbeqL]
  | _ :: _, [] => by simp [jbeqL]

/-- Soundness and completeness of `jbeqF`. -/
def jbeqF_iff : (xs ys : List (String × JValue)) → (jbeqF xs ys = true ↔ xs = ys)
  | [], [] => by simp [jbeqF]
  | (k, x) :: xs, (l, y) :: ys => by
    simp [jbeqF, jbeq_iff x y, jbeqF_iff xs ys, and_assoc]
  | [], _ :: _ => by simp [jbeqF]
  | _ :: _, [] => by simp [jbeqF]

end

instance : DecidableEq JValue := fun a b => decidable_of_iff _ (jbeq_iff a b)

/-- JavaScript truthiness for a defined value: `null`, `false`, `0` and
the empty string are falsy; every object and array is truthy. -/
def isTruthy : JValue → Bool
  | .null => false
  | .bool b => b
  | .num n => n != 0
  | .str s => s ≠ ""
  | .arr _ => true
  | .obj _ => true

/-- Property read `v[k]`: defined only on objects, `none` plays the role
of JavaScript `undefined`.  (The keys the source reads are never numeric,
so arrays own none of them.) -/
def jget? (v : JValue) (k : String) : Option JValue :=
  match v with
  | .obj fields => fields.lookup k
  | _ => none

/-- Optional-chaining read `v?.k` on a possibly-undefined value. -/
def jchain (v : Option JValue) (k : String) : Option JValue :=
  v.bind (jget? · k)

/-- The list `Object.values(v)`: field values of an object in insertion
order, elements of an array, empty for primitives. -/
def jvalues : JValue → List JValue
  | .obj fields => fields.map Prod.snd
  | .arr elems => elems
  | _ => []

/-- Test for `typeof v === 'object' && v !== null` (arrays included). -/
def isComposite : JValue → Bool
  | .obj _ => true
  | .arr _ => true
  | _ => false

/-- Substring test on character lists, modelling `String.prototype.includes`. -/
def hasSubL : List Char → List Char → Bool
  | _, [] => true
  | [], _ :: _ => false
  | c :: cs, p :: ps =>
    ((p :: ps).isPrefixOf (c :: cs)) || hasSubL cs (p :: ps)

/-- Substring test `s.includes(sub)`. -/
def hasSub (s sub : String) : Bool :=
  hasSubL s.toList sub.toList

/-- ASCII lowering of one character (`toLowerCase` restricted to the
ASCII range the source meets in urls and titles). -/
def lowerChar (c : Char) : Char :=
  if 'A' ≤ c ∧ c ≤ 'Z' then Char.ofNat (c.toNat + 32) else c

/-- `s.toLowerCase()` on the character list. -/
def jsToLowerL (cs : List Char) : List Char :=
  cs.map lowerChar

/-- The check `url.toLowerCase().endsWith('.gif')`. -/
def gifUrl (t : String) : Bool :=
  (".gif".toList).isSuffixOf (jsToLowerL t.toList)

/-- Whitespace for `trim()` (the ASCII part of the JavaScript set). -/
def jsWsp (c : Char) : Bool :=
  (c == ' ') || (c == '\t') || (c == '\n') || (c == '\r') ||
    (c == '\x0b') || (c == '\x0c')

/-- `s.trim()` on the character list. -/
def jsTrimL (cs : List Char) : List Char :=
  (((cs.dropWhile jsWsp).reverse).dropWhile jsWsp).reverse

/-- `s.trim()`. -/
def jsTrim (s : String) : String :=
  String.mk (jsTrimL s.toList)

/-- `s.startsWith(p)`. -/
def jsStartsWith (s p : String) : Bool :=
  p.toList.isPrefixOf s.toList

/-- `s.slice(0, n)`. -/
def jsSlice (s : String) (n : Nat) : String :=
  String.mk (s.toList.take n)

/-- Read `entry?.url` and keep it only when it is a truthy string (a
non-empty string).  A truthy non-string `url` would raise a `TypeError`
at `entry.url.includes(...)` in the source; the well-typedness
hypotheses of the theorems exclude that case. -/
def entryUrl? (entry : JValue) : Option String :=
  match jget? entry "url" with
  | some (.str s) => if s = "" then none else some s
  | _ => none

/-- Entry whose `url` field, if present, is a string — the typing the
data model (spec section 3) gives every variant. -/
def urlTyped (entry : JValue) : Bool :=
  match entry with
  | .obj fields =>
    match fields.lookup "url" with
    | some (.str _) => true
    | some _ => false
    | none => true
  | _ => true

/-- The constant `VIDEO_QUALITY_PREFERENCE` of `src/utils/pinterest.js`. -/
def VIDEO_QUALITY_PREFERENCE : List String :=
  ["V_1080P", "V_720P", "V_480P", "V_240P", "V_EXP7", "V_EXP6", "V_EXP5"]

/-- Return value of `pickBestVideo`: `\x7b url, width?, height? \x7d`. -/
structure VideoPick where
  url : String
  width : Option JValue := none
  height : Option JValue := none
deriving DecidableEq

/-- First preference-order hit of the `pickBestVideo` quality loop. -/
def pickByQuality (videoList : JValue) : List String → Option VideoPick
  | [] => none
  | q :: qs =>
    match jget? videoList q with
    | some entry =>
      match entryUrl? entry with
      | some u =>
        if hasSub u ".m3u8" then pickByQuality videoList qs
        else some ⟨u, jget? entry "width", jget? entry "height"⟩
      | none => pickByQuality videoList qs
    | none => pickByQuality videoList qs

/-- Fallback loop of `pickBestVideo`: first non-HLS url in `Object.values`. -/
def pickFallbackVideo : List JValue → Option VideoPick
  | [] => none
  | entry :: rest =>
    match entryUrl? entry with
    | some u =>
      if hasSub u ".m3u8" then pickFallbackVideo rest else some ⟨u, none, none⟩
    | none => pickFallbackVideo rest

/-- Model of `pickBestVideo` (`src/utils/pinterest.js:658-675`): preferred
qualities first, then any non-HLS url in map order, `null` otherwise. -/
def pickBestVideo (videoList : JValue) : Option VideoPick :=
  if ¬ (isTruthy videoList ∧ isComposite videoList) then none
  else
    match pickByQuality videoList VIDEO_QUALITY_PREFERENCE with
    | some p => some p
    | none => pickFallbackVideo (jvalues videoList)

/-- The `preferredKeys` constant of `pickBestImage`. -/
def IMAGE_PREFERRED_KEYS : List String :=
  ["orig", "736x", "600x315", "474x", "236x", "170x"]

/-- Preferred-keys loop of `pickBestImage`: the first truthy
`images[k]?.url` is returned verbatim (the source never inspects it). -/
def pickImageByKey (images : JValue) : List String → Option JValue
  | [] => none
  | k :: ks =>
    match jchain (jget? images k) "url" with
    | some u => if isTruthy u then some u else pickImageByKey images ks
    | none => pickImageByKey images ks

/-- Fallback loop of `pickBestImage`: first value with a truthy `url`. -/
def pickImageFallback : List JValue → Option JValue
  | [] => none
  | v :: rest =>
    match jchain (some v) "url" with
    | some u => if isTruthy u then some u else pickImageFallback rest
    | none => pickImageFallback rest

/-- Model of `pickBestImage` (`src/utils/pinterest.js:681-692`). -/
def pickBestImage (images : JValue) : Option JValue :=
  if ¬ (isTruthy images ∧ isComposite images) then none
  else
    match pickImageByKey images IMAGE_PREFERRED_KEYS with
    | some u => some u
    | none => pickImageFallback (jvalues images)

/-- Lift of `pickBestImage` to a possibly-undefined argument
(`pickBestImage(pin.images)` with `pin.images` absent yields `null`). -/
def pickBestImage? (images : Option JValue) : Option JValue :=
  images.bind pickBestImage

/-! Claim-side reformulations used to state the selector properties. -/

/-- What one iteration of the `pickBestVideo` quality loop yields for a
label `q`: the variant at `q` when it has a progressive (non-HLS) url. -/
def stepProg (videoList : JValue) (q : String) : Option VideoPick :=
  match jget? videoList q with
  | some entry =>
    match entryUrl? entry with
    | some u =>
      if hasSub u ".m3u8" then none
      else some ⟨u, jget? entry "width", jget? entry "height"⟩
    | none => none
  | none => none

/-- A candidate carrying a progressive (truthy, non-HLS) url. -/
def entryProgressive (e : JValue) : Bool :=
  match entryUrl? e with
  | some u => !hasSub u ".m3u8"
  | none => false

/-- A candidate that is a streaming format: its url references `.m3u8`. -/
def entryStreaming (e : JValue) : Bool :=
  match entryUrl? e with
  | some u => hasSub u ".m3u8"
  | none => false

/-- What one iteration of a `pickBestImage` loop yields for a candidate:
its `url` value when truthy. -/
def imageUrlOf (e : JValue) : Option JValue :=
  match jget? e "url" with
  | some u => if isTruthy u then some u else none
  | none => none

/-- One iteration of the `pickBestImage` preferred-keys loop. -/
def imgStep (images : JValue) (k : String) : Option JValue :=
  (jget? images k).bind imageUrlOf

/-- A successful `List.lookup` value is among the mapped values. -/
theorem lookup_mem_values {l : List (String × JValue)} {k : String} {v : JValue}
    (h : l.lookup k = some v) : v ∈ l.map Prod.snd := by
  induction l with
  | nil => simp [List.lookup] at h
  | cons p rest ih =>
    rcases p with ⟨k', v'⟩
    by_cases hk : k = k'
    · subst hk
      simp [List.lookup] at h
      simp [h]
    · have hf : (k == k') = false := by simp [hk]
      simp [List.lookup, hf] at h
      simpa using Or.inr (ih h)

/-- A `jget?` hit is among `jvalues`. -/
theorem jget_mem_jvalues {vl : JValue} {q : String} {e : JValue}
    (h : jget? vl q = some e) : e ∈ jvalues vl := by
  cases vl with
  | obj fields => exact lookup_mem_values h
  | null => simp [jget?] at h
  | bool b => simp [jget?] at h
  | num n => simp [jget?] at h
  | str s => simp [jget?] at h
  | arr es => simp [jget?] at h

/-- Inversion principle for `stepProg`. -/
theorem stepProg_some_iff {vl : JValue} {q : String} {p : VideoPick} :
    stepProg vl q = some p ↔
      ∃ entry, jget? vl q = some entry ∧
        ∃ u, entryUrl? entry = some u ∧ hasSub u ".m3u8" = false ∧
          p = ⟨u, jget? entry "width", jget? entry "height"⟩ := by
  unfold stepProg
  cases hg : jget? vl q with
  | none => simp
  | some entry =>
    simp only [Option.some.injEq]
    cases hu : entryUrl? entry with
    | none => simp [hu]
    | some u =>
      by_cases hm : hasSub u ".m3u8"
      · simp [hu, hm]
      · rw [Bool.not_eq_true] at hm
        simp only [hu, hm, if_false, Bool.false_eq_true]
        constructor
        · intro h
          exact ⟨entry, rfl, u, hu, hm, by cases h; rfl⟩
        · rintro ⟨e1, he1, u1, hu1, -, hp⟩
          cases he1
          rw [hu] at hu1
          cases hu1
          rw [hp]

/-- One unfolding of the quality loop in terms of `stepProg`. -/
theorem pickByQuality_cons (vl : JValue) (q : String) (qs : List String) :
    pickByQuality vl (q :: qs) =
      (match stepProg vl q with
        | some p => some p
        | none => pickByQuality vl qs) := by
  cases hg : jget? vl q with
  | none => simp [pickByQuality, stepProg, hg]
  | some entry =>
    cases hu : entryUrl? entry with
    | none => simp [pickByQuality, stepProg, hg, hu]
    | some u =>
      by_cases hm : hasSub u ".m3u8" <;>
        simp [pickByQuality, stepProg, hg, hu, hm]

/-- One unfolding of the fallback loop in terms of `entryUrl?`. -/
theorem pickFallbackVideo_cons (e : JValue) (rest : List JValue) :
    pickFallbackVideo (e :: rest) =
      (match entryUrl? e with
        | some u =>
          if hasSub u ".m3u8" then pickFallbackVideo rest
          else some ⟨u, none, none⟩
        | none => pickFallbackVideo rest) := by
  rfl

/-- The quality loop never yields an HLS url. -/
theorem pickByQuality_not_hls {vl : JValue} {qs : List String} {p : VideoPick}
    (h : pickByQuality vl qs = some p) : hasSub p.url ".m3u8" = false := by
  induction qs with
  | nil => simp [pickByQuality] at h
  | cons q rest ih =>
    rw [pickByQuality_cons] at h
    cases hs : stepProg vl q with
    | none => rw [hs] at h; exact ih h
    | some p' =>
      rw [hs] at h
      cases h
      rcases stepProg_some_iff.mp hs with ⟨entry, -, u, -, hm, hp⟩
      rw [hp]
      exact hm

/-- The fallback loop never yields an HLS url. -/
theorem pickFallbackVideo_not_hls {es : List JValue} {p : VideoPick}
    (h : pickFallbackVideo es = some p) : hasSub p.url ".m3u8" = false := by
  induction es with
  | nil => simp [pickFallbackVideo] at h
  | cons e rest ih =>
    rw [pickFallbackVideo_cons] at h
    cases hu : entryUrl? e with
    | none => simp only [hu] at h; exact ih h
    | some u =>
      simp only [hu] at h
      by_cases hm : hasSub u ".m3u8"
      · rw [if_pos hm] at h; exact ih h
      · rw [if_neg hm] at h
        cases h
        simpa using hm

/-- The fallback loop succeeds when some candidate is progressive. -/
theorem pickFallbackVideo_isSome {es : List JValue}
    (h : ∃ e ∈ es, entryProgressive e = true) :
    ∃ p, pickFallbackVideo es = some p := by
  induction es with
  | nil => simp at h
  | cons e rest ih =>
    rw [pickFallbackVideo_cons]
    cases hu : entryUrl? e with
    | none =>
      simp only [hu]
      rcases h with ⟨e', he', hp⟩
      rcases List.mem_cons.mp he' with rfl | hmem
      · simp [entryProgressive, hu] at hp
      · exact ih ⟨e', hmem, hp⟩
    | some u =>
      simp only [hu]
      by_cases hm : hasSub u ".m3u8"
      · simp only [if_pos hm]
        rcases h with ⟨e', he', hp⟩
        rcases List.mem_cons.mp he' with rfl | hmem
        · simp [entryProgressive, hu, hm] at hp
        · exact ih ⟨e', hmem, hp⟩
      · simp only [if_neg hm]
        exact ⟨_, rfl⟩

/-- When every label of a tail yields nothing, the quality loop fails. -/
theorem pickByQuality_none {vl : JValue} {qs : List String}
    (h : ∀ q ∈ qs, stepProg vl q = none) : pickByQuality vl qs = none := by
  induction qs with
  | nil => rfl
  | cons q rest ih =>
    rw [pickByQuality_cons, h q (List.mem_cons_self q rest)]
    exact ih fun q' hq' => h q' (List.mem_cons_of_mem _ hq')

/-- The quality loop returns the hit of the first label that has one. -/
theorem pickByQuality_first_hit {vl : JValue} {p : VideoPick} :
    ∀ {l₁ : List String} {q : String} {l₂ : List String},
    (∀ q' ∈ l₁, stepProg vl q' = none) → stepProg vl q = some p →
    pickByQuality vl (l₁ ++ q :: l₂) = some p := by
  intro l₁
  induction l₁ with
  | nil =>
    intro q l₂ _ hq
    rw [List.nil_append, pickByQuality_cons, hq]
  | cons q' rest ih =>
    intro q l₂ hnone hq
    rw [List.cons_append, pickByQuality_cons,
      hnone q' (List.mem_cons_self q' rest)]
    exact ih (fun x hx => hnone x (List.mem_cons_of_mem _ hx)) hq

/-- The fallback loop returns the url of the first progressive candidate. -/
theorem pickFallbackVideo_first_hit {u : String} :
    ∀ {l₁ : List JValue} {e : JValue} {l₂ : List JValue},
    (∀ e' ∈ l₁, entryProgressive e' = false) →
    entryUrl? e = some u → hasSub u ".m3u8" = false →
    pickFallbackVideo (l₁ ++ e :: l₂) = some ⟨u, none, none⟩ := by
  intro l₁
  induction l₁ with
  | nil =>
    intro e l₂ _ hu hm
    rw [List.nil_append, pickFallbackVideo_cons]
    simp only [hu, hm, Bool.false_eq_true, if_false]
  | cons e' rest ih =>
    intro e l₂ hnone hu hm
    rw [List.cons_append, pickFallbackVideo_cons]
    have h' := hnone e' (List.mem_cons_self e' rest)
    cases hu' : entryUrl? e' with
    | none =>
      simp only [hu']
      exact ih (fun x hx => hnone x (List.mem_cons_of_mem _ hx)) hu hm
    | some u' =>
      simp only [hu']
      have hm' : hasSub u' ".m3u8" = true := by
        simp only [entryProgressive, hu'] at h'
        simpa using h'
      rw [if_pos hm']
      exact ih (fun x hx => hnone x (List.mem_cons_of_mem _ hx)) hu hm

/-- When every candidate is streaming the fallback loop fails. -/
theorem pickFallbackVideo_none {es : List JValue}
    (h : ∀ e ∈ es, entryStreaming e = true) : pickFallbackVideo es = none := by
  induction es with
  | nil => rfl
  | cons e rest ih =>
    rw [pickFallbackVideo_cons]
    have he := h e (List.mem_cons_self e rest)
    have htail := ih fun x hx => h x (List.mem_cons_of_mem _ hx)
    cases hu : entryUrl? e with
    | none => simpa only [hu] using htail
    | some u =>
      simp only [hu]
      unfold entryStreaming at he
      rw [hu] at he
      rw [if_pos he]
      exact htail

/-- On a truthy object or array `pickBestVideo` runs its two loops. -/
theorem pickBestVideo_eq_of_composite {vl : JValue} (h : isComposite vl = true) :
    pickBestVideo vl =
      (match pickByQuality vl VIDEO_QUALITY_PREFERENCE with
        | some p => some p
        | none => pickFallbackVideo (jvalues vl)) := by
  cases vl <;> simp_all [pickBestVideo, isComposite, isTruthy]

/-- On anything else (`null`, strings, numbers, booleans) it yields none. -/
theorem pickBestVideo_of_not_composite {vl : JValue}
    (h : isComposite vl = false) : pickBestVideo vl = none := by
  cases vl <;> simp_all [pickBestVideo, isComposite, isTruthy]

/-- C3: for every video-variant mapping (well-typed per the data model,
i.e. `url` fields are strings), `pickBestVideo` (`selectBestVideo`)
(1) never returns a streaming-manifest `.m3u8` url — in particular not
when a progressive candidate exists; (2) succeeds with a progressive url
whenever any progressive candidate exists; (3) returns the variant of
the first label of the fixed quality-preference order that carries a
progressive url; (4) otherwise falls back to the first progressive
variant in mapping order; and (5) returns none when the mapping is
empty or every candidate is a streaming format. -/
theorem pickBestVideo_prefers_progressive (vl : JValue)
    (hwf : ∀ e ∈ jvalues vl, urlTyped e = true) :
    (∀ p, pickBestVideo vl = some p → hasSub p.url ".m3u8" = false)
    ∧ ((∃ e ∈ jvalues vl, entryProgressive e = true) →
        ∃ p, pickBestVideo vl = some p ∧ hasSub p.url ".m3u8" = false)
    ∧ (∀ l₁ q l₂ p, VIDEO_QUALITY_PREFERENCE = l₁ ++ q :: l₂ →
        (∀ q' ∈ l₁, stepProg vl q' = none) → stepProg vl q = some p →
        pickBestVideo vl = some p)
    ∧ ((∀ q ∈ VIDEO_QUALITY_PREFERENCE, stepProg vl q = none) →
        ∀ l₁ e l₂ u, jvalues vl = l₁ ++ e :: l₂ →
        (∀ e' ∈ l₁, entryProgressive e' = false) →
        entryUrl? e = some u → hasSub u ".m3u8" = false →
        pickBestVideo vl = some ⟨u, none, none⟩)
    ∧ ((jvalues vl = [] ∨ ∀ e ∈ jvalues vl, entryStreaming e = true) →
        pickBestVideo vl = none) := by
  refine ⟨?_, ?_, ?_, ?_, ?_⟩
  · intro p hp
    cases hc : isComposite vl with
    | false => rw [pickBestVideo_of_not_composite hc] at hp; cases hp
    | true =>
      rw [pickBestVideo_eq_of_composite hc] at hp
      cases hq : pickByQuality vl VIDEO_QUALITY_PREFERENCE with
      | some p' =>
        rw [hq] at hp; cases hp
        exact pickByQuality_not_hls hq
      | none =>
        rw [hq] at hp
        exact pickFallbackVideo_not_hls hp
  · intro hex
    have hc : isComposite vl = true := by
      rcases hex with ⟨e, he, -⟩
      cases vl <;> simp [jvalues] at he <;> rfl
    rw [pickBestVideo_eq_of_composite hc]
    cases hq : pickByQuality vl VIDEO_QUALITY_PREFERENCE with
    | some p' => exact ⟨p', rfl, pickByQuality_not_hls hq⟩
    | none =>
      rcases pickFallbackVideo_isSome hex with ⟨p, hp⟩
      exact ⟨p, hp, pickFallbackVideo_not_hls hp⟩
  · intro l₁ q l₂ p hsplit hnone hq
    have hc : isComposite vl = true := by
      rcases stepProg_some_iff.mp hq with ⟨entry, hg, -⟩
      cases vl <;> simp [jget?] at hg <;> rfl
    rw [pickBestVideo_eq_of_composite hc, hsplit,
      pickByQuality_first_hit hnone hq]
  · intro hqnone l₁ e l₂ u hsplit hnone hu hm
    have hc : isComposite vl = true := by
      cases vl <;> simp [jvalues] at hsplit <;> rfl
    rw [pickBestVideo_eq_of_composite hc, pickByQuality_none hqnone,
      hsplit, pickFallbackVideo_first_hit hnone hu hm]
  · intro hcase
    cases hc : isComposite vl with
    | false => exact pickBestVideo_of_not_composite hc
    | true =>
      rw [pickBestVideo_eq_of_composite hc]
      rcases hcase with hemp | hstream
      · have hq : ∀ q ∈ VIDEO_QUALITY_PREFERENCE, stepProg vl q = none := by
          intro q _
          cases hg : jget? vl q with
          | none => simp [stepProg, hg]
          | some entry =>
            have := jget_mem_jvalues hg
            rw [hemp] at this
            cases this
        rw [pickByQuality_none hq, hemp]
        rfl
      · have hq : ∀ q ∈ VIDEO_QUALITY_PREFERENCE, stepProg vl q = none := by
          intro q _
          cases hg : jget? vl q with
          | none => simp [stepProg, hg]
          | some entry =>
            have hmem := jget_mem_jvalues hg
            have hst := hstream entry hmem
            cases hu : entryUrl? entry with
            | none => simp [stepProg, hg, hu]
            | some u =>
              simp only [entryStreaming, hu] at hst
              simp [stepProg, hg, hu, hst]
        rw [pickByQuality_none hq, pickFallbackVideo_none hstream]

/-- Witness: on a concrete mapping whose best label is HLS-only, the
theorem for C3 places the first progressive preference label. -/
theorem pickBestVideo_prefers_progressive_witness :
    pickBestVideo (.obj [("V_720P", .obj [("url", .str "https://v.example/a.m3u8")]),
        ("V_480P", .obj [("url", .str "https://v.example/a.mp4"), ("width", .num 480)])])
      = some ⟨"https://v.example/a.mp4", some (.num 480), none⟩ := by
  exact (pickBestVideo_prefers_progressive _ (by decide)).2.2.1
    ["V_1080P", "V_720P"] "V_480P" ["V_240P", "V_EXP7", "V_EXP6", "V_EXP5"] _
    rfl (by decide) (by decide)

/-- One unfolding of the preferred-keys loop in terms of `imgStep`. -/
theorem pickImageByKey_cons (images : JValue) (k : String) (ks : List String) :
    pickImageByKey images (k :: ks) =
      (match imgStep images k with
        | some u => some u
        | none => pickImageByKey images ks) := by
  cases hg : jget? images k with
  | none => simp [pickImageByKey, imgStep, jchain, hg]
  | some e =>
    cases hu : jget? e "url" with
    | none => simp [pickImageByKey, imgStep, imageUrlOf, jchain, hg, hu]
    | some u =>
      by_cases ht : isTruthy u <;>
        simp [pickImageByKey, imgStep, imageUrlOf, jchain, hg, hu, ht]

/-- One unfolding of the image fallback loop in terms of `imageUrlOf`. -/
theorem pickImageFallback_cons (v : JValue) (rest : List JValue) :
    pickImageFallback (v :: rest) =
      (match imageUrlOf v with
        | some u => some u
        | none => pickImageFallback rest) := by
  cases hu : jget? v "url" with
  | none => simp [pickImageFallback, imageUrlOf, jchain, hu]
  | some u =>
    by_cases ht : isTruthy u <;>
      simp [pickImageFallback, imageUrlOf, jchain, hu, ht]

/-- When every preferred key yields nothing the key loop fails. -/
theorem pickImageByKey_none {images : JValue} {ks : List String}
    (h : ∀ k ∈ ks, imgStep images k = none) : pickImageByKey images ks = none := by
  induction ks with
  | nil => rfl
  | cons k rest ih =>
    rw [pickImageByKey_cons, h k (List.mem_cons_self k rest)]
    exact ih fun k' hk' => h k' (List.mem_cons_of_mem _ hk')

/-- The key loop returns the hit of the first preferred key that has one. -/
theorem pickImageByKey_first_hit {images : JValue} {u : JValue} :
    ∀ {l₁ : List String} {k : String} {l₂ : List String},
    (∀ k' ∈ l₁, imgStep images k' = none) → imgStep images k = some u →
    pickImageByKey images (l₁ ++ k :: l₂) = some u := by
  intro l₁
  induction l₁ with
  | nil =>
    intro k l₂ _ hk
    rw [List.nil_append, pickImageByKey_cons, hk]
  | cons k' rest ih =>
    intro k l₂ hnone hk
    rw [List.cons_append, pickImageByKey_cons,
      hnone k' (List.mem_cons_self k' rest)]
    exact ih (fun x hx => hnone x (List.mem_cons_of_mem _ hx)) hk

/-- The image fallback loop fails exactly when no candidate has a truthy url. -/
theorem pickImageFallback_none_iff {es : List JValue} :
    pickImageFallback es = none ↔ ∀ e ∈ es, imageUrlOf e = none := by
  induction es with
  | nil => simp [pickImageFallback]
  | cons e rest ih =>
    rw [pickImageFallback_cons]
    cases hu : imageUrlOf e with
    | none => simp [hu, ih]
    | some u => simp [hu]

/-- The image fallback loop returns the first truthy url in order. -/
theorem pickImageFallback_first_hit {u : JValue} :
    ∀ {l₁ : List JValue} {e : JValue} {l₂ : List JValue},
    (∀ e' ∈ l₁, imageUrlOf e' = none) → imageUrlOf e = some u →
    pickImageFallback (l₁ ++ e :: l₂) = some u := by
  intro l₁
  induction l₁ with
  | nil =>
    intro e l₂ _ he
    rw [List.nil_append, pickImageFallback_cons, he]
  | cons e' rest ih =>
    intro e l₂ hnone he
    rw [List.cons_append, pickImageFallback_cons,
      hnone e' (List.mem_cons_self e' rest)]
    exact ih (fun x hx => hnone x (List.mem_cons_of_mem _ hx)) he

/-- On a truthy object or array `pickBestImage` runs its two loops. -/
theorem pickBestImage_eq_of_composite {images : JValue}
    (h : isComposite images = true) :
    pickBestImage images =
      (match pickImageByKey images IMAGE_PREFERRED_KEYS with
        | some u => some u
        | none => pickImageFallback (jvalues images)) := by
  cases images <;> simp_all [pickBestImage, isComposite, isTruthy]

/-- On anything else `pickBestImage` yields none. -/
theorem pickBestImage_of_not_composite {images : JValue}
    (h : isComposite images = false) : pickBestImage images = none := by
  cases images <;> simp_all [pickBestImage, isComposite, isTruthy]

/-- C7 counterexample: a non-empty mapping on which `pickBestImage`
(`selectBestImage`) still returns none, refuting the claim that none is
returned only when the mapping is empty. -/
theorem pickBestImage_nonempty_none_counterexample :
    pickBestImage (.obj [("orig", .obj [])]) = none ∧
      jvalues (.obj [("orig", .obj [])]) ≠ [] := by
  decide

/-- C7 (amended): `pickBestImage` (`selectBestImage`) returns the url of
the first preferred size label that carries a truthy url; else the first
truthy url in mapping iteration order; and it returns none exactly when
no candidate carries a truthy url — in particular on the empty mapping,
but also on non-empty mappings whose entries all lack a truthy url. -/
theorem pickBestImage_selection (images : JValue) :
    (∀ l₁ k l₂ u, IMAGE_PREFERRED_KEYS = l₁ ++ k :: l₂ →
        (∀ k' ∈ l₁, imgStep images k' = none) → imgStep images k = some u →
        pickBestImage images = some u)
    ∧ ((∀ k ∈ IMAGE_PREFERRED_KEYS, imgStep images k = none) →
        ∀ l₁ e l₂ u, jvalues images = l₁ ++ e :: l₂ →
        (∀ e' ∈ l₁, imageUrlOf e' = none) → imageUrlOf e = some u →
        pickBestImage images = some u)
    ∧ (isComposite images = true →
        (pickBestImage images = none ↔ ∀ e ∈ jvalues images, imageUrlOf e = none))
    ∧ (isComposite images = false → pickBestImage images = none) := by
  refine ⟨?_, ?_, ?_, pickBestImage_of_not_composite⟩
  · intro l₁ k l₂ u hsplit hnone hk
    have hc : isComposite images = true := by
      have : imgStep images k ≠ none := by simp [hk]
      unfold imgStep at this
      cases hg : jget? images k with
      | none => rw [hg] at this; simp at this
      | some e => cases images <;> simp [jget?] at hg <;> rfl
    rw [pickBestImage_eq_of_composite hc, hsplit,
      pickImageByKey_first_hit hnone hk]
  · intro hknone l₁ e l₂ u hsplit hnone he
    have hc : isComposite images = true := by
      cases images <;> simp [jvalues] at hsplit <;> rfl
    rw [pickBestImage_eq_of_composite hc, pickImageByKey_none hknone,
      hsplit, pickImageFallback_first_hit hnone he]
  · intro hc
    rw [pickBestImage_eq_of_composite hc]
    constructor
    · intro hres e he
      cases hq : pickImageByKey images IMAGE_PREFERRED_KEYS with
      | some u => rw [hq] at hres; cases hres
      | none =>
        rw [hq] at hres
        exact pickImageFallback_none_iff.mp hres e he
    · intro hall
      have hq : ∀ k ∈ IMAGE_PREFERRED_KEYS, imgStep images k = none := by
        intro k _
        unfold imgStep
        cases hg : jget? images k with
        | none => rfl
        | some e => simpa using hall e (jget_mem_jvalues hg)
      rw [pickImageByKey_none hq]
      exact pickImageFallback_none_iff.mpr hall

/-- Witness: on a concrete mapping lacking `orig` the theorem for C7
selects the `736x` url; the counterexample mapping has no truthy url. -/
theorem pickBestImage_selection_witness :
    pickBestImage (.obj [("736x", .obj [("url", .str "https://i.example/736.jpg")])])
      = some (.str "https://i.example/736.jpg") := by
  exact (pickBestImage_selection _).1
    ["orig"] "736x" ["600x315", "474x", "236x", "170x"] _
    rfl (by decide) (by decide)


/-! Structural search (`deepFind`, `src/utils/pinterest.js:636-652`) on
`JSON.parse` output.  Parse results are trees of fresh objects, so the
`WeakSet` cycle guard never fires on them; the guard itself is verified
separately on the heap model below (claim C4). -/

mutual

/-- Tree form of `deepFind`: collect every value stored under `key`,
depth first, recursing into object and array children only. -/
def deepFindT (key : String) : JValue → List JValue
  | .obj fields =>
    (match fields.lookup key with
      | some v => [v]
      | none => []) ++ deepFindF key fields
  | .arr elems => deepFindL key elems
  | _ => []

/-- Traversal of the `Object.values` of an object. -/
def deepFindF (key : String) : List (String × JValue) → List JValue
  | [] => []
  | (_, v) :: rest =>
    (if isComposite v then deepFindT key v else []) ++ deepFindF key rest

/-- Traversal of the elements of an array. -/
def deepFindL (key : String) : List JValue → List JValue
  | [] => []
  | v :: rest =>
    (if isComposite v then deepFindT key v else []) ++ deepFindL key rest

end

/-- A successful `List.lookup` pair is a member of the list. -/
theorem lookup_mem {l : List (String × JValue)} {k : String} {v : JValue}
    (h : l.lookup k = some v) : (k, v) ∈ l := by
  induction l with
  | nil => simp [List.lookup] at h
  | cons p rest ih =>
    rcases p with ⟨k', v'⟩
    by_cases hk : k = k'
    · subst hk
      simp [List.lookup] at h
      simp [h]
    · have hf : (k == k') = false := by simp [hk]
      simp [List.lookup, hf] at h
      exact List.mem_cons_of_mem _ (ih h)

/-- A key hit of a value is among its structural-search results. -/
theorem jget_mem_deepFindT {v : JValue} {key : String} {u : JValue}
    (h : jget? v key = some u) : u ∈ deepFindT key v := by
  cases v with
  | obj fields =>
    simp only [jget?] at h
    unfold deepFindT
    rw [h]
    simp
  | null => simp [jget?] at h
  | bool b => simp [jget?] at h
  | num n => simp [jget?] at h
  | str s => simp [jget?] at h
  | arr es => simp [jget?] at h

/-- Search results of a composite member of a field list are search
results of the field list. -/
theorem deepFindF_sub {key : String} {w : JValue}
    (hc : isComposite w = true) :
    ∀ {fields : List (String × JValue)} {k : String}, (k, w) ∈ fields →
      ∀ {y : JValue}, y ∈ deepFindT key w → y ∈ deepFindF key fields := by
  intro fields
  induction fields with
  | nil => intro k h; cases h
  | cons p rest ih =>
    intro k hmem y hy
    rcases p with ⟨k', v'⟩
    rcases List.mem_cons.mp hmem with heq | htail
    · cases heq
      simp only [deepFindF, hc, if_true]
      exact List.mem_append_left _ hy
    · simp only [deepFindF]
      exact List.mem_append_right _ (ih htail hy)

/-- Search results of a composite child are search results of the parent. -/
theorem deepFindT_sub {key : String} {v w : JValue}
    (hmem : w ∈ jvalues v) (hc : isComposite w = true) :
    ∀ {y : JValue}, y ∈ deepFindT key w → y ∈ deepFindT key v := by
  intro y hy
  cases v with
  | obj fields =>
    simp only [jvalues, List.mem_map] at hmem
    rcases hmem with ⟨⟨k, v'⟩, hkv, rfl⟩
    simp only [deepFindT]
    exact List.mem_append_right _ (deepFindF_sub hc hkv hy)
  | arr elems =>
    simp only [jvalues] at hmem
    simp only [deepFindT]
    induction elems with
    | nil => cases hmem
    | cons e rest ih =>
      rcases List.mem_cons.mp hmem with rfl | htail
      · simp only [deepFindL, hc, if_true]
        exact List.mem_append_left _ hy
      · simp only [deepFindL]
        exact List.mem_append_right _ (ih htail)
  | null => simp [jvalues] at hmem
  | bool b => simp [jvalues] at hmem
  | num n => simp [jvalues] at hmem
  | str s => simp [jvalues] at hmem

/-- A `jget?` hit is on an object. -/
theorem isComposite_of_jget {v : JValue} {k : String} {u : JValue}
    (h : jget? v k = some u) : isComposite v = true := by
  cases v <;> simp [jget?] at h <;> rfl


/-! Pin-object converter (`pinObjectToMedia`, `src/utils/pinterest.js:839-890`). -/

/-- Media result type tag. -/
inductive MediaType
  | video
  | image
  | gif
deriving DecidableEq, Repr

/-- The canonical output shape `MediaResult` (spec section 3). -/
structure MediaResult where
  type : MediaType
  media_url : String
  thumbnail : Option String
  title : String
deriving DecidableEq, Repr

/-- Title fallback from `pin.description`: trimmed, truncated to 120. -/
def titleFromDesc (pin : JValue) : String :=
  match jget? pin "description" with
  | some (.str d) => if jsTrim d = "" then "Pinterest" else jsSlice (jsTrim d) 120
  | _ => "Pinterest"

/-- Title resolution of `pinObjectToMedia`: non-empty trimmed title, else
non-empty trimmed description truncated to 120, else `Pinterest`. -/
def titleOf (pin : JValue) : String :=
  match jget? pin "title" with
  | some (.str s) => if jsTrim s = "" then titleFromDesc pin else jsTrim s
  | _ => titleFromDesc pin

/-- The `a ?? b` operator on possibly-undefined values. -/
def nullish (a b : Option JValue) : Option JValue :=
  match a with
  | none => b
  | some .null => b
  | some v => some v

/-- Iteration base of `for (const block of (page?.blocks || []))`: array
elements.  A string would iterate its characters, each of which owns no
properties and contributes nothing, so it is modelled as no blocks; any
falsy value yields `[]` through `|| []`.  (A truthy non-iterable object
here raises a `TypeError` in the source; `PinWf` excludes it.) -/
def blocksOf (blocks : Option JValue) : List JValue :=
  match blocks with
  | some (.arr l) => l
  | _ => []

/-- The video list a story block carries:
`block?.video?.video_list ?? block?.block?.video?.video_list`. -/
def storyBlockVideoList (block : JValue) : Option JValue :=
  nullish (jchain (jchain (some block) "video") "video_list")
    (jchain (jchain (jchain (some block) "block") "video") "video_list")

/-- Inner story loop: first block of a page whose truthy video list
yields a pick. -/
def findStoryVideo : List JValue → Option VideoPick
  | [] => none
  | block :: rest =>
    match storyBlockVideoList block with
    | some v =>
      if isTruthy v then
        match pickBestVideo v with
        | some best => some best
        | none => findStoryVideo rest
      else findStoryVideo rest
    | none => findStoryVideo rest

/-- Outer story loop: first page with a usable video, together with the
page itself (whose cover image becomes the thumbnail). -/
def findStoryPage : List JValue → Option (VideoPick × JValue)
  | [] => none
  | page :: rest =>
    match findStoryVideo (blocksOf (jget? page "blocks")) with
    | some best => some (best, page)
    | none => findStoryPage rest

/-- First usable video among structural-search results (format 3). -/
def firstVideoIn : List JValue → Option VideoPick
  | [] => none
  | vl :: rest =>
    match pickBestVideo vl with
    | some best => some best
    | none => firstVideoIn rest

/-- String content of a possibly-undefined value, `none` otherwise (a
truthy non-string in these positions raises a `TypeError` in the source
or is carried verbatim; `PinWf` scopes the theorems to strings). -/
def asStr? : Option JValue → Option String
  | some (.str s) => some s
  | _ => none

/-- Format 1 of the converter: `pin.videos?.video_list`. -/
def pinFmt1 (pin : JValue) : Option VideoPick :=
  match jchain (jget? pin "videos") "video_list" with
  | some vl => if isTruthy vl then pickBestVideo vl else none
  | none => none

/-- Format 2 of the converter: the story-pin pages. -/
def pinFmt2 (pin : JValue) : Option (VideoPick × JValue) :=
  match jchain (jget? pin "story_pin_data") "pages" with
  | some (.arr pages) => findStoryPage pages
  | _ => none

/-- Model of `pinObjectToMedia` (`src/utils/pinterest.js:839-890`):
direct video list, else story-pin video, else structural search for any
video list, else an image/gif result from the resolved thumbnail. -/
def pinObjectToMedia (pin : JValue) : Option MediaResult :=
  if ¬ (isTruthy pin ∧ isComposite pin) then none
  else
    let title := titleOf pin
    let thumbnail := asStr? (pickBestImage? (jget? pin "images"))
    match pinFmt1 pin with
    | some best => some ⟨.video, best.url, thumbnail, title⟩
    | none =>
      match pinFmt2 pin with
      | some (best, page) =>
        let storyThumb :=
          match asStr? (pickBestImage? (jget? page "image")) with
          | some t => some t
          | none => thumbnail
        some ⟨.video, best.url, storyThumb, title⟩
      | none =>
        match firstVideoIn (deepFindT "video_list" pin) with
        | some best => some ⟨.video, best.url, thumbnail, title⟩
        | none =>
          match thumbnail with
          | some t =>
            some ⟨if gifUrl t then .gif else .image, t, some t, title⟩
          | none => none

/-- Field typing for urls: an `url` field is a string. -/
def urlFieldOk (k : String) (v : JValue) : Bool :=
  if k = "url" then (match v with | .str _ => true | _ => false) else true

/-- Field typing for story blocks: a `blocks` field is an array, a
string, or falsy — anything `for ... of` accepts without throwing. -/
def blocksFieldOk (k : String) (v : JValue) : Bool :=
  if k = "blocks" then
    (match v with
      | .arr _ => true
      | .str _ => true
      | w => !isTruthy w)
  else true

mutual

/-- Well-typed pin payload (the universe of the data model, spec
section 3): every `url` field anywhere is a string and every `blocks`
field is iterable, so the source never raises a `TypeError` on it. -/
def PinWf : JValue → Bool
  | .obj fields => PinWfF fields
  | .arr elems => PinWfL elems
  | _ => true

/-- `PinWf` over a field list. -/
def PinWfF : List (String × JValue) → Bool
  | [] => true
  | (k, v) :: rest => urlFieldOk k v && blocksFieldOk k v && PinWf v && PinWfF rest

/-- `PinWf` over an element list. -/
def PinWfL : List JValue → Bool
  | [] => true
  | v :: rest => PinWf v && PinWfL rest

end


/-- Membership consequence of `PinWfF`. -/
theorem PinWfF_mem {fields : List (String × JValue)} {k : String} {v : JValue}
    (h : PinWfF fields = true) (hm : (k, v) ∈ fields) :
    urlFieldOk k v = true ∧ blocksFieldOk k v = true ∧ PinWf v = true := by
  induction fields with
  | nil => cases hm
  | cons p rest ih =>
    rcases p with ⟨k', v'⟩
    simp only [PinWfF, Bool.and_eq_true] at h
    rcases List.mem_cons.mp hm with heq | ht
    · cases heq
      exact ⟨h.1.1.1, h.1.1.2, h.1.2⟩
    · exact ih h.2 ht

/-- Membership consequence of `PinWfL`. -/
theorem PinWfL_mem {elems : List JValue} {v : JValue}
    (h : PinWfL elems = true) (hm : v ∈ elems) : PinWf v = true := by
  induction elems with
  | nil => cases hm
  | cons e rest ih =>
    simp only [PinWfL, Bool.and_eq_true] at h
    rcases List.mem_cons.mp hm with rfl | ht
    · exact h.1
    · exact ih h.2 ht

/-- `PinWf` propagates to every child value. -/
theorem PinWf_jvalues {v w : JValue} (h : PinWf v = true)
    (hm : w ∈ jvalues v) : PinWf w = true := by
  cases v with
  | obj fields =>
    simp only [jvalues, List.mem_map] at hm
    rcases hm with ⟨⟨k, v'⟩, hkv, rfl⟩
    exact (PinWfF_mem (by simpa [PinWf] using h) hkv).2.2
  | arr elems => exact PinWfL_mem (by simpa [PinWf] using h) hm
  | null => simp [jvalues] at hm
  | bool b => simp [jvalues] at hm
  | num n => simp [jvalues] at hm
  | str s => simp [jvalues] at hm

/-- `PinWf` propagates through a field read. -/
theorem PinWf_jget {v : JValue} {k : String} {u : JValue}
    (h : PinWf v = true) (hg : jget? v k = some u) : PinWf u = true :=
  PinWf_jvalues h (jget_mem_jvalues hg)

/-- Under `PinWf` every `url` field is a string. -/
theorem PinWf_url_str {e u : JValue} (h : PinWf e = true)
    (hg : jget? e "url" = some u) : ∃ s, u = .str s := by
  cases e with
  | obj fields =>
    simp only [jget?] at hg
    have hok := (PinWfF_mem (by simpa [PinWf] using h) (lookup_mem hg)).1
    unfold urlFieldOk at hok
    simp only [if_pos rfl] at hok
    cases u with
    | str s => exact ⟨s, rfl⟩
    | null => cases hok
    | bool b => cases hok
    | num n => cases hok
    | arr l => cases hok
    | obj f => cases hok
  | null => simp [jget?] at hg
  | bool b => simp [jget?] at hg
  | num n => simp [jget?] at hg
  | str s => simp [jget?] at hg
  | arr l => simp [jget?] at hg

/-- Inversion for `imageUrlOf`. -/
theorem imageUrlOf_some_iff {e u : JValue} :
    imageUrlOf e = some u ↔ jget? e "url" = some u ∧ isTruthy u = true := by
  unfold imageUrlOf
  cases hg : jget? e "url" with
  | none => simp
  | some w =>
    by_cases ht : isTruthy w
    · simp only [ht, if_true, Option.some.injEq]
      constructor
      · rintro rfl
        exact ⟨rfl, ht⟩
      · rintro ⟨h, -⟩
        cases h
        rfl
    · rw [Bool.not_eq_true] at ht
      simp only [ht, Bool.false_eq_true, if_false]
      constructor
      · rintro h
        cases h
      · rintro ⟨h, htr⟩
        cases h
        rw [ht] at htr
        cases htr

/-- Every url the preferred-key image loop returns is the `url` field of
some candidate. -/
theorem pickImageByKey_url {images : JValue} {ks : List String} {u : JValue}
    (h : pickImageByKey images ks = some u) :
    ∃ e ∈ jvalues images, jget? e "url" = some u ∧ isTruthy u = true := by
  induction ks with
  | nil => simp [pickImageByKey] at h
  | cons k rest ih =>
    rw [pickImageByKey_cons] at h
    cases hs : imgStep images k with
    | none => rw [hs] at h; exact ih h
    | some u' =>
      rw [hs] at h
      cases h
      unfold imgStep at hs
      rcases Option.bind_eq_some.mp hs with ⟨e, hg, hu⟩
      rcases imageUrlOf_some_iff.mp hu with ⟨hurl, htr⟩
      exact ⟨e, jget_mem_jvalues hg, hurl, htr⟩

/-- Every url the image fallback loop returns is the `url` field of some
candidate. -/
theorem pickImageFallback_url {es : List JValue} {u : JValue}
    (h : pickImageFallback es = some u) :
    ∃ e ∈ es, jget? e "url" = some u ∧ isTruthy u = true := by
  induction es with
  | nil => simp [pickImageFallback] at h
  | cons e rest ih =>
    rw [pickImageFallback_cons] at h
    cases hs : imageUrlOf e with
    | none =>
      rw [hs] at h
      rcases ih h with ⟨e', he', hu⟩
      exact ⟨e', List.mem_cons_of_mem _ he', hu⟩
    | some u' =>
      rw [hs] at h
      cases h
      rcases imageUrlOf_some_iff.mp hs with ⟨hurl, htr⟩
      exact ⟨e, List.mem_cons_self e rest, hurl, htr⟩

/-- Every url `pickBestImage` returns is the `url` field of a candidate. -/
theorem pickBestImage_url {images : JValue} {u : JValue}
    (h : pickBestImage images = some u) :
    ∃ e ∈ jvalues images, jget? e "url" = some u ∧ isTruthy u = true := by
  cases hc : isComposite images with
  | false => rw [pickBestImage_of_not_composite hc] at h; cases h
  | true =>
    rw [pickBestImage_eq_of_composite hc] at h
    cases hq : pickImageByKey images IMAGE_PREFERRED_KEYS with
    | some u' =>
      rw [hq] at h
      cases h
      exact pickImageByKey_url hq
    | none =>
      rw [hq] at h
      exact pickImageFallback_url h


/-- A composite value is truthy. -/
theorem isTruthy_of_composite {v : JValue} (h : isComposite v = true) :
    isTruthy v = true := by
  cases v <;> simp_all [isComposite, isTruthy]

/-- Inversion for `jchain` on an optional base. -/
theorem jchain_some_inv {a : Option JValue} {k : String} {v : JValue}
    (h : jchain a k = some v) : ∃ m, a = some m ∧ jget? m k = some v := by
  cases a with
  | none => simp [jchain] at h
  | some m => exact ⟨m, rfl, by simpa [jchain] using h⟩

/-- `firstVideoIn` fails exactly when no search result yields a video. -/
theorem firstVideoIn_none_iff {es : List JValue} :
    firstVideoIn es = none ↔ ∀ vl ∈ es, pickBestVideo vl = none := by
  induction es with
  | nil => simp [firstVideoIn]
  | cons vl rest ih =>
    cases hv : pickBestVideo vl with
    | none => simp [firstVideoIn, hv, ih]
    | some b => simp [firstVideoIn, hv]

/-- Format 1 finds nothing when no structural-search video list does. -/
theorem pinFmt1_none {pin : JValue}
    (hnv : ∀ vl ∈ deepFindT "video_list" pin, pickBestVideo vl = none) :
    pinFmt1 pin = none := by
  unfold pinFmt1
  cases hc : jchain (jget? pin "videos") "video_list" with
  | none => rfl
  | some vl =>
    rcases jchain_some_inv hc with ⟨vo, hvo, hvl⟩
    have hmem : vl ∈ deepFindT "video_list" pin :=
      deepFindT_sub (jget_mem_jvalues hvo) (isComposite_of_jget hvl)
        (jget_mem_deepFindT hvl)
    simp [hnv vl hmem]

/-- Either branch of the `??` in a story block is a real chain. -/
theorem storyBlockVideoList_inv {block v : JValue}
    (h : storyBlockVideoList block = some v) :
    jchain (jchain (some block) "video") "video_list" = some v ∨
    jchain (jchain (jchain (some block) "block") "video") "video_list" = some v := by
  unfold storyBlockVideoList nullish at h
  cases hA : jchain (jchain (some block) "video") "video_list" with
  | none =>
    rw [hA] at h
    exact Or.inr h
  | some w =>
    rw [hA] at h
    cases w with
    | null => exact Or.inr h
    | bool b => cases h; exact Or.inl rfl
    | num n => cases h; exact Or.inl rfl
    | str s => cases h; exact Or.inl rfl
    | arr l => cases h; exact Or.inl rfl
    | obj f => cases h; exact Or.inl rfl

/-- The inner story loop fails when every block video list is unusable. -/
theorem findStoryVideo_none {blocks : List JValue}
    (h : ∀ block ∈ blocks, ∀ v, storyBlockVideoList block = some v →
      pickBestVideo v = none) :
    findStoryVideo blocks = none := by
  induction blocks with
  | nil => rfl
  | cons block rest ih =>
    have htail := ih fun b hb => h b (List.mem_cons_of_mem _ hb)
    cases hs : storyBlockVideoList block with
    | none => simp [findStoryVideo, hs, htail]
    | some v =>
      have hv := h block (List.mem_cons_self block rest) v hs
      by_cases ht : isTruthy v <;> simp [findStoryVideo, hs, ht, hv, htail]

/-- The outer story loop fails when every page fails. -/
theorem findStoryPage_none {pages : List JValue}
    (h : ∀ page ∈ pages, ∀ block ∈ blocksOf (jget? page "blocks"),
      ∀ v, storyBlockVideoList block = some v → pickBestVideo v = none) :
    findStoryPage pages = none := by
  induction pages with
  | nil => rfl
  | cons page rest ih =>
    have hpage := findStoryVideo_none (h page (List.mem_cons_self page rest))
    have htail := ih fun p hp => h p (List.mem_cons_of_mem _ hp)
    simp [findStoryPage, hpage, htail]

/-- A block with a nonempty block list comes from an array field. -/
theorem blocksOf_mem_inv {b : Option JValue} {block : JValue}
    (h : block ∈ blocksOf b) : ∃ l, b = some (.arr l) ∧ block ∈ l := by
  cases b with
  | none => cases h
  | some v =>
    cases v with
    | arr l => exact ⟨l, rfl, h⟩
    | null => cases h
    | bool x => cases h
    | num x => cases h
    | str x => cases h
    | obj x => cases h

/-- A story-block video list is a structural-search result of the pin. -/
theorem storyVideoList_mem_deepFindT {pin sp pagesV page block v : JValue}
    {pages : List JValue}
    (hsp : jget? pin "story_pin_data" = some sp)
    (hpv : jget? sp "pages" = some pagesV) (hpar : pagesV = .arr pages)
    (hpage : page ∈ pages)
    (hblock : block ∈ blocksOf (jget? page "blocks"))
    (hv : storyBlockVideoList block = some v) :
    v ∈ deepFindT "video_list" pin := by
  subst hpar
  rcases blocksOf_mem_inv hblock with ⟨l, hbl, hbm⟩
  have hbc : isComposite block = true := by
    rcases storyBlockVideoList_inv hv with hA | hB
    · rcases jchain_some_inv hA with ⟨bv, hbv, hvl⟩
      rcases jchain_some_inv hbv with ⟨m, hm, hg⟩
      cases hm
      exact isComposite_of_jget hg
    · rcases jchain_some_inv hB with ⟨bv, hbv, hvl⟩
      rcases jchain_some_inv hbv with ⟨bb, hbb, hg2⟩
      rcases jchain_some_inv hbb with ⟨m, hm, hg⟩
      cases hm
      exact isComposite_of_jget hg
  have hup : ∀ y, y ∈ deepFindT "video_list" block →
      y ∈ deepFindT "video_list" pin := by
    intro y hy
    have h1 : y ∈ deepFindT "video_list" (.arr l) :=
      deepFindT_sub (v := .arr l) hbm hbc hy
    have h2 : y ∈ deepFindT "video_list" page :=
      deepFindT_sub (jget_mem_jvalues hbl) rfl h1
    have h3 : y ∈ deepFindT "video_list" (.arr pages) :=
      deepFindT_sub (v := .arr pages) hpage (isComposite_of_jget hbl) h2
    have h4 : y ∈ deepFindT "video_list" sp :=
      deepFindT_sub (jget_mem_jvalues hpv) rfl h3
    exact deepFindT_sub (jget_mem_jvalues hsp) (isComposite_of_jget hpv) h4
  rcases storyBlockVideoList_inv hv with hA | hB
  · rcases jchain_some_inv hA with ⟨bv, hbv, hvl⟩
    rcases jchain_some_inv hbv with ⟨m, hm, hg⟩
    cases hm
    exact hup v (deepFindT_sub (jget_mem_jvalues hg)
      (isComposite_of_jget hvl) (jget_mem_deepFindT hvl))
  · rcases jchain_some_inv hB with ⟨bv, hbv, hvl⟩
    rcases jchain_some_inv hbv with ⟨bb, hbb, hg2⟩
    rcases jchain_some_inv hbb with ⟨m, hm, hg⟩
    cases hm
    have hmemv : v ∈ deepFindT "video_list" bb :=
      deepFindT_sub (jget_mem_jvalues hg2) (isComposite_of_jget hvl)
        (jget_mem_deepFindT hvl)
    exact hup v (deepFindT_sub (jget_mem_jvalues hg)
      (isComposite_of_jget hg2) hmemv)

/-- Format 2 finds nothing when no structural-search video list does. -/
theorem pinFmt2_none {pin : JValue}
    (hnv : ∀ vl ∈ deepFindT "video_list" pin, pickBestVideo vl = none) :
    pinFmt2 pin = none := by
  unfold pinFmt2
  cases hc : jchain (jget? pin "story_pin_data") "pages" with
  | none => rfl
  | some pv =>
    rcases jchain_some_inv hc with ⟨sp, hsp, hpv⟩
    cases pv with
    | arr pages =>
      exact findStoryPage_none fun page hp block hb v hv =>
        hnv v (storyVideoList_mem_deepFindT hsp hpv rfl hp hb hv)
    | null => rfl
    | bool b => rfl
    | num n => rfl
    | str s => rfl
    | obj f => rfl


/-- Under `PinWf` a missing stringified thumbnail means no thumbnail. -/
theorem asStrNone_wf {pin : JValue} (hwf : PinWf pin = true)
    (h : asStr? (pickBestImage? (jget? pin "images")) = none) :
    pickBestImage? (jget? pin "images") = none := by
  cases hb : pickBestImage? (jget? pin "images") with
  | none => rfl
  | some u =>
    exfalso
    have hb2 : (jget? pin "images").bind pickBestImage = some u := hb
    rcases Option.bind_eq_some.mp hb2 with ⟨img, hg, hpick⟩
    rcases pickBestImage_url hpick with ⟨e, he, hu, -⟩
    rcases PinWf_url_str (PinWf_jvalues (PinWf_jget hwf hg) he) hu with ⟨s, rfl⟩
    rw [hb] at h
    simp [asStr?] at h

/-- C6: for every well-typed pin object whose `images` field yields a
thumbnail while no usable video exists anywhere (every structural-search
`video_list` — which includes the direct `videos.video_list` and all
story-pin lists — yields no pick), `pinObjectToMedia` returns an image
result (`gif` when the resolved url ends in `.gif`) whose `media_url`
equals the thumbnail; and it returns none exactly when neither a
thumbnail nor a usable video was found. -/
theorem pinObjectToMedia_image_fallback (pin : JValue) (hwf : PinWf pin = true) :
    (∀ t, pickBestImage? (jget? pin "images") = some (.str t) →
        (∀ vl ∈ deepFindT "video_list" pin, pickBestVideo vl = none) →
        pinObjectToMedia pin =
          some ⟨if gifUrl t then .gif else .image, t, some t, titleOf pin⟩)
    ∧ (pinObjectToMedia pin = none ↔
        (pickBestImage? (jget? pin "images") = none ∧
          ∀ vl ∈ deepFindT "video_list" pin, pickBestVideo vl = none)) := by
  constructor
  · intro t himg hnv
    have himg2 : (jget? pin "images").bind pickBestImage = some (.str t) := himg
    rcases Option.bind_eq_some.mp himg2 with ⟨img, hg, -⟩
    have hC : isComposite pin = true := isComposite_of_jget hg
    have hT := isTruthy_of_composite hC
    simp [pinObjectToMedia, hT, hC, pinFmt1_none hnv, pinFmt2_none hnv,
      firstVideoIn_none_iff.mpr hnv, himg, asStr?]
  · constructor
    · intro hres
      by_cases hC : isComposite pin = true
      · have hT := isTruthy_of_composite hC
        cases h1 : pinFmt1 pin with
        | some b => simp [pinObjectToMedia, hT, hC, h1] at hres
        | none =>
        cases h2 : pinFmt2 pin with
        | some pr =>
          rcases pr with ⟨best, page⟩
          simp [pinObjectToMedia, hT, hC, h1, h2] at hres
        | none =>
        cases h3 : firstVideoIn (deepFindT "video_list" pin) with
        | some b => simp [pinObjectToMedia, hT, hC, h1, h2, h3] at hres
        | none =>
        cases ht : asStr? (pickBestImage? (jget? pin "images")) with
        | some t => simp [pinObjectToMedia, hT, hC, h1, h2, h3, ht] at hres
        | none => exact ⟨asStrNone_wf hwf ht, firstVideoIn_none_iff.mp h3⟩
      · cases pin with
        | obj f => exact absurd rfl hC
        | arr l => exact absurd rfl hC
        | null => exact ⟨rfl, by intro vl h; cases h⟩
        | bool b => exact ⟨rfl, by intro vl h; cases h⟩
        | num n => exact ⟨rfl, by intro vl h; cases h⟩
        | str s => exact ⟨rfl, by intro vl h; cases h⟩
    · rintro ⟨hthumb, hnv⟩
      by_cases hC : isComposite pin = true
      · have hT := isTruthy_of_composite hC
        simp [pinObjectToMedia, hT, hC, pinFmt1_none hnv, pinFmt2_none hnv,
          firstVideoIn_none_iff.mpr hnv, hthumb, asStr?]
      · have hC' : isComposite pin = false := by simpa using hC
        simp [pinObjectToMedia, hC']

/-- Witness: a concrete image-only pin, whose url ends in `.gif`, maps to
a gif result carrying the thumbnail as `media_url`. -/
theorem pinObjectToMedia_image_fallback_witness :
    pinObjectToMedia
        (.obj [("images", .obj [("orig", .obj [("url", .str "https://i.example/c.gif")])])]) =
      some ⟨.gif, "https://i.example/c.gif", some "https://i.example/c.gif",
        "Pinterest"⟩ := by
  have h := (pinObjectToMedia_image_fallback
      (.obj [("images", .obj [("orig", .obj [("url", .str "https://i.example/c.gif")])])])
      (by decide)).1 "https://i.example/c.gif" (by decide)
      (fun vl hv => by cases hv)
  exact h.trans (by decide)


/-! Heap model for claim C4: `deepFind` over arbitrary — possibly
cyclic — object graphs.  A heap is a list of nodes; node `r` owns the
ordered property list `hprops h r`; a value is an opaque primitive or a
reference into the heap.  The source threads one mutated `WeakSet`
(`_seen`) through the whole traversal, modelled by explicit state
passing.  The recursion of the source carries no fuel; here a fuel
argument bounds the call depth (one unit per call), and the termination
theorem shows a fuel computed from the heap alone always suffices, which
is exactly the termination of the unbounded recursion. -/

inductive HVal where
  | prim (tag : String)
  | ref (r : Nat)
deriving DecidableEq, Repr

/-- A heap: node `r` is the property list at index `r`. -/
abbrev Heap := List (List (String × HVal))

/-- Own properties of node `r` (a dangling reference owns none). -/
def hprops (h : Heap) (r : Nat) : List (String × HVal) := h.getD r []

mutual

/-- `deepFind(obj, key, _seen)` (`src/utils/pinterest.js:636-652`) on one
value: primitives return no results; an already-seen reference returns no
results; otherwise the node is marked seen, its own `key` property (if
any) is collected, and its values are traversed in order. -/
def deepFindV (h : Heap) (key : String) : Nat → HVal → List Nat → Option (List HVal × List Nat)
  | _, .prim _, seen => some ([], seen)
  | 0, .ref _, _ => none
  | fuel + 1, .ref r, seen =>
    if r ∈ seen then some ([], seen)
    else
      match deepFindVs h key fuel ((hprops h r).map Prod.snd) (r :: seen) with
      | none => none
      | some (res, seen') =>
        some ((match (hprops h r).lookup key with
                | some x => [x]
                | none => []) ++ res, seen')

/-- The `for (const val of Object.values(obj))` loop of `deepFind`: only
object values recurse, and the seen set threads left to right. -/
def deepFindVs (h : Heap) (key : String) : Nat → List HVal → List Nat → Option (List HVal × List Nat)
  | _, [], seen => some ([], seen)
  | 0, _ :: _, _ => none
  | fuel + 1, .prim _ :: vs, seen => deepFindVs h key fuel vs seen
  | fuel + 1, .ref r :: vs, seen =>
    match deepFindV h key fuel (.ref r) seen with
    | none => none
    | some (res1, seen1) =>
      match deepFindVs h key fuel vs seen1 with
      | none => none
      | some (res2, seen2) => some (res1 ++ res2, seen2)

end

/-- Fuel cost of entering node `r` and walking its property list. -/
def nodeWeight (h : Heap) (r : Nat) : Nat := 1 + (hprops h r).length

/-- Total fuel the unvisited part of the heap can still consume. -/
def heapWeight (h : Heap) (seen : List Nat) : Nat :=
  ((Finset.range h.length).filter (fun r => r ∉ seen)).sum (nodeWeight h)

/-- Growing the seen set cannot increase the remaining weight. -/
theorem heapWeight_mono {h : Heap} {s₁ s₂ : List Nat}
    (hsub : ∀ x ∈ s₁, x ∈ s₂) : heapWeight h s₂ ≤ heapWeight h s₁ := by
  refine Finset.sum_le_sum_of_subset ?_
  intro r hr
  simp only [Finset.mem_filter] at hr ⊢
  exact ⟨hr.1, fun hmem => hr.2 (hsub r hmem)⟩

/-- Visiting a fresh live node costs exactly its weight. -/
theorem heapWeight_cons {h : Heap} {r : Nat} {seen : List Nat}
    (hr : r < h.length) (hseen : r ∉ seen) :
    heapWeight h seen = nodeWeight h r + heapWeight h (r :: seen) := by
  unfold heapWeight
  have hmem : r ∈ (Finset.range h.length).filter (fun x => x ∉ seen) := by
    simp [Finset.mem_filter, hr, hseen]
  have herase :
      (Finset.range h.length).filter (fun x => x ∉ (r :: seen)) =
        ((Finset.range h.length).filter (fun x => x ∉ seen)).erase r := by
    ext x
    simp only [Finset.mem_filter, Finset.mem_erase, List.mem_cons]
    constructor
    · rintro ⟨hx, hnot⟩
      exact ⟨fun he => hnot (Or.inl he), hx, fun hm => hnot (Or.inr hm)⟩
    · rintro ⟨hne, hx, hnot⟩
      exact ⟨hx, fun hor => hor.elim hne hnot⟩
  rw [herase, Finset.add_sum_erase _ (nodeWeight h) hmem]

/-- Monotonicity of the threaded seen set, and preservation of its
freedom from duplicates: each node is marked at most once. -/
theorem deepFind_seen_facts (h : Heap) (key : String) :
    ∀ fuel : Nat,
    (∀ v seen res seen', deepFindV h key fuel v seen = some (res, seen') →
      (∀ x ∈ seen, x ∈ seen') ∧ (seen.Nodup → seen'.Nodup)) ∧
    (∀ vs seen res seen', deepFindVs h key fuel vs seen = some (res, seen') →
      (∀ x ∈ seen, x ∈ seen') ∧ (seen.Nodup → seen'.Nodup)) := by
  intro fuel
  induction fuel with
  | zero =>
    constructor
    · intro v seen res seen' hv
      cases v with
      | prim t =>
        simp only [deepFindV, Option.some.injEq, Prod.mk.injEq] at hv
        rcases hv with ⟨-, rfl⟩
        exact ⟨fun x hx => hx, fun hn => hn⟩
      | ref r => simp [deepFindV] at hv
    · intro vs seen res seen' hl
      cases vs with
      | nil =>
        simp only [deepFindVs, Option.some.injEq, Prod.mk.injEq] at hl
        rcases hl with ⟨-, rfl⟩
        exact ⟨fun x hx => hx, fun hn => hn⟩
      | cons v rest => simp [deepFindVs] at hl
  | succ fuel ih =>
    have hV : ∀ v seen res seen',
        deepFindV h key (fuel + 1) v seen = some (res, seen') →
        (∀ x ∈ seen, x ∈ seen') ∧ (seen.Nodup → seen'.Nodup) := by
      intro v seen res seen' hv
      cases v with
      | prim t =>
        simp only [deepFindV, Option.some.injEq, Prod.mk.injEq] at hv
        rcases hv with ⟨-, rfl⟩
        exact ⟨fun x hx => hx, fun hn => hn⟩
      | ref r =>
        by_cases hr : r ∈ seen
        · simp only [deepFindV, if_pos hr, Option.some.injEq, Prod.mk.injEq] at hv
          rcases hv with ⟨-, rfl⟩
          exact ⟨fun x hx => hx, fun hn => hn⟩
        · simp only [deepFindV, if_neg hr] at hv
          cases hL : deepFindVs h key fuel ((hprops h r).map Prod.snd) (r :: seen) with
          | none => rw [hL] at hv; cases hv
          | some p =>
            rcases p with ⟨res2, s2⟩
            rw [hL] at hv
            simp only [Option.some.injEq, Prod.mk.injEq] at hv
            rcases hv with ⟨-, rfl⟩
            rcases (ih.2 _ _ _ _ hL) with ⟨hsub, hnd⟩
            constructor
            · exact fun x hx => hsub x (List.mem_cons_of_mem _ hx)
            · intro hn
              exact hnd (List.nodup_cons.mpr ⟨hr, hn⟩)
    refine ⟨hV, ?_⟩
    intro vs seen res seen' hl
    cases vs with
    | nil =>
      simp only [deepFindVs, Option.some.injEq, Prod.mk.injEq] at hl
      rcases hl with ⟨-, rfl⟩
      exact ⟨fun x hx => hx, fun hn => hn⟩
    | cons v rest =>
      cases v with
      | prim t =>
        simp only [deepFindVs] at hl
        exact ih.2 _ _ _ _ hl
      | ref r =>
        simp only [deepFindVs] at hl
        cases hV1 : deepFindV h key fuel (.ref r) seen with
        | none => rw [hV1] at hl; cases hl
        | some p1 =>
          rcases p1 with ⟨res1, s1⟩
          simp only [hV1] at hl
          cases hL2 : deepFindVs h key fuel rest s1 with
          | none => rw [hL2] at hl; cases hl
          | some p2 =>
            rcases p2 with ⟨res2, s2⟩
            simp only [hL2, Option.some.injEq, Prod.mk.injEq] at hl
            rcases hl with ⟨-, rfl⟩
            rcases ih.1 _ _ _ _ hV1 with ⟨hsub1, hnd1⟩
            rcases ih.2 _ _ _ _ hL2 with ⟨hsub2, hnd2⟩
            exact ⟨fun x hx => hsub2 x (hsub1 x hx), fun hn => hnd2 (hnd1 hn)⟩

/-- Fuel bounded by the remaining heap weight always suffices. -/
theorem deepFind_fuel (h : Heap) (key : String) :
    ∀ fuel : Nat,
    (∀ v seen, heapWeight h seen + 1 ≤ fuel → (deepFindV h key fuel v seen).isSome) ∧
    (∀ vs seen, heapWeight h seen + vs.length + 1 ≤ fuel →
      (deepFindVs h key fuel vs seen).isSome) := by
  intro fuel
  induction fuel with
  | zero =>
    exact ⟨fun v seen hle => absurd hle (by omega),
      fun vs seen hle => absurd hle (by omega)⟩
  | succ fuel ih =>
    constructor
    · intro v seen hle
      cases v with
      | prim t => simp [deepFindV]
      | ref r =>
        by_cases hr : r ∈ seen
        · simp [deepFindV, hr]
        · simp only [deepFindV, if_neg hr]
          by_cases hlen : r < h.length
          · have hw := heapWeight_cons (h := h) hlen hr
            have hfits : heapWeight h (r :: seen) +
                ((hprops h r).map Prod.snd).length + 1 ≤ fuel := by
              rw [List.length_map]
              have : nodeWeight h r = 1 + (hprops h r).length := rfl
              omega
            have := ih.2 ((hprops h r).map Prod.snd) (r :: seen) hfits
            cases hL : deepFindVs h key fuel ((hprops h r).map Prod.snd) (r :: seen) with
            | none => rw [hL] at this; cases this
            | some p => simp
          · have hnil : hprops h r = [] := by
              unfold hprops
              exact List.getD_eq_default _ _ (by omega)
            rw [hnil]
            simp [deepFindVs]
    · intro vs seen hle
      cases vs with
      | nil => simp [deepFindVs]
      | cons v rest =>
        cases v with
        | prim t =>
          simp only [deepFindVs]
          refine ih.2 rest seen ?_
          simp only [List.length_cons] at hle
          omega
        | ref r =>
          simp only [deepFindVs]
          have hv1 : (deepFindV h key fuel (.ref r) seen).isSome := by
            refine ih.1 _ seen ?_
            simp only [List.length_cons] at hle
            omega
          cases hV1 : deepFindV h key fuel (.ref r) seen with
          | none => rw [hV1] at hv1; cases hv1
          | some p1 =>
            rcases p1 with ⟨res1, s1⟩
            have hsub := ((deepFind_seen_facts h key fuel).1 _ _ _ _ hV1).1
            have hmono := heapWeight_mono (h := h) hsub
            have hv2 : (deepFindVs h key fuel rest s1).isSome := by
              refine ih.2 rest s1 ?_
              simp only [List.length_cons] at hle
              omega
            cases hL2 : deepFindVs h key fuel rest s1 with
            | none => rw [hL2] at hv2; cases hv2
            | some p2 => simp [hV1, hL2]


/-- C4: `deepFind` terminates on every input heap — self-referential
object graphs included — returning a finite result sequence: fuel
computed from the heap alone (`heapWeight h [] + 1`, independent of the
graph's shape or cycles) always suffices, and the visited-set guard
marks each composite node at most once (the final seen list has no
duplicates). -/
theorem deepFind_terminates (h : Heap) (key : String) (v : HVal) :
    (deepFindV h key (heapWeight h [] + 1) v []).isSome = true ∧
    ∀ res seen', deepFindV h key (heapWeight h [] + 1) v [] = some (res, seen') →
      seen'.Nodup := by
  constructor
  · exact (deepFind_fuel h key (heapWeight h [] + 1)).1 v [] (le_refl _)
  · intro res seen' heq
    exact ((deepFind_seen_facts h key (heapWeight h [] + 1)).1 v [] res seen' heq).2
      List.nodup_nil

/-- Witness: a node that contains itself as a child is traversed without
hanging, collecting its `video_list` property once. -/
theorem deepFind_terminates_witness :
    (deepFindV [[("self", HVal.ref 0), ("video_list", HVal.prim "x")]] "video_list"
        (heapWeight [[("self", HVal.ref 0), ("video_list", HVal.prim "x")]] [] + 1)
        (.ref 0) []).isSome = true ∧ List.Nodup [0] := by
  refine ⟨(deepFind_terminates _ "video_list" (.ref 0)).1, ?_⟩
  exact (deepFind_terminates [[("self", HVal.ref 0), ("video_list", HVal.prim "x")]]
    "video_list" (.ref 0)).2 [HVal.prim "x"] [0] (by decide)


/-! Model of `upgradeImageQuality` (`src/utils/pinterest.js:896-899`):
`url.replace(/\/\d+x\//, '/originals/')`, replacing the leftmost match
of slash, one or more digits, `x`, slash. -/

/-- Match of the regex `/\d+x\//` at the head of a character list
(split into three definitions for the proofs), returning the remainder
after the closing slash; the digit run is maximal, and backtracking
cannot produce a different match because fewer digits leave a digit,
not the required `x`, as the next character.  `trySegTail` checks the
closing `x/`. -/
def trySegTail : List Char → Option (List Char)
  | x :: s :: tail => if x = 'x' ∧ s = '/' then some tail else none
  | _ => none

/-- Digit run and closing of the segment after the opening slash. -/
def trySegCore (rest : List Char) : Option (List Char) :=
  if rest.takeWhile Char.isDigit = [] then none
  else trySegTail (rest.dropWhile Char.isDigit)

/-- Head match of the whole segment pattern. -/
def trySeg : List Char → Option (List Char)
  | [] => none
  | c :: rest => if c = '/' then trySegCore rest else none

/-- Leftmost-match replacement: scan left to right, splice in
`/originals/` at the first match, leave everything else unchanged. -/
def replaceFirstSeg : List Char → List Char
  | [] => []
  | c :: cs =>
    match trySeg (c :: cs) with
    | some tail => "/originals/".toList ++ tail
    | none => c :: replaceFirstSeg cs

/-- Model of `upgradeImageQuality`: the `!url` guard only passes the
empty string for string inputs. -/
def upgradeImageQuality (url : String) : String :=
  if url = "" then url else String.mk (replaceFirstSeg url.toList)

/-- Number of positions at which the sized-segment regex matches. -/
def countSeg : List Char → Nat
  | [] => 0
  | c :: cs => (if (trySeg (c :: cs)).isSome then 1 else 0) + countSeg cs

/-- All-digit prefixes pass `takeWhile` whole when an `x` follows. -/
theorem takeWhile_digits {ds l : List Char} (h : ∀ d ∈ ds, d.isDigit = true) :
    (ds ++ 'x' :: l).takeWhile Char.isDigit = ds ∧
    (ds ++ 'x' :: l).dropWhile Char.isDigit = 'x' :: l := by
  induction ds with
  | nil =>
    constructor
    · simp [List.takeWhile_cons]
    · simp [List.dropWhile_cons]
  | cons d rest ih =>
    have hd : d.isDigit = true := h d (List.mem_cons_self d rest)
    have hrest := ih fun x hx => h x (List.mem_cons_of_mem _ hx)
    constructor
    · simp [List.takeWhile_cons, hd, hrest.1]
    · simp [List.dropWhile_cons, hd, hrest.2]

/-- A match at an explicitly shaped head succeeds. -/
theorem trySeg_shape {ds t : List Char} (hne : ds ≠ [])
    (hdig : ∀ d ∈ ds, d.isDigit = true) :
    trySeg ('/' :: ds ++ 'x' :: '/' :: t) = some t := by
  have hw := takeWhile_digits (l := '/' :: t) hdig
  have hstep : trySeg ('/' :: ds ++ 'x' :: '/' :: t) =
      trySegCore (ds ++ 'x' :: '/' :: t) := by
    simp [trySeg]
  rw [hstep]
  unfold trySegCore
  rw [hw.1, hw.2, if_neg hne]
  simp [trySegTail]

/-- Inversion of a successful head match. -/
theorem trySeg_some_inv {l t : List Char} (h : trySeg l = some t) :
    ∃ ds, l = '/' :: ds ++ 'x' :: '/' :: t ∧ ds ≠ [] ∧
      ∀ d ∈ ds, d.isDigit = true := by
  cases l with
  | nil => simp [trySeg] at h
  | cons c rest =>
    simp only [trySeg] at h
    by_cases hc : c = '/'
    · rw [if_pos hc] at h
      subst hc
      unfold trySegCore at h
      by_cases hds : rest.takeWhile Char.isDigit = []
      · rw [if_pos hds] at h
        cases h
      · rw [if_neg hds] at h
        cases hdrop : rest.dropWhile Char.isDigit with
        | nil => rw [hdrop] at h; cases h
        | cons x rest2 =>
          cases rest2 with
          | nil => rw [hdrop] at h; cases h
          | cons s tail =>
            rw [hdrop] at h
            simp only [trySegTail] at h
            by_cases hxs : x = 'x' ∧ s = '/'
            · rw [if_pos hxs] at h
              cases h
              refine ⟨rest.takeWhile Char.isDigit, ?_, hds, ?_⟩
              · have := List.takeWhile_append_dropWhile Char.isDigit rest
                rw [hdrop, hxs.1, hxs.2] at this
                conv_lhs => rw [← this]
                exact (List.cons_append _ _ _).symm
              · exact fun d hd => List.mem_takeWhile_imp hd
            · rw [if_neg hxs] at h
              cases h
    · rw [if_neg hc] at h
      cases h

/-- With no match anywhere the replacement is the identity. -/
theorem replaceFirstSeg_id {cs : List Char} (h : countSeg cs = 0) :
    replaceFirstSeg cs = cs := by
  induction cs with
  | nil => rfl
  | cons c cs ih =>
    unfold countSeg at h
    cases hts : trySeg (c :: cs) with
    | some tail => rw [hts] at h; simp at h
    | none =>
      rw [hts] at h
      simp only [Option.isSome_none, Bool.false_eq_true, if_false, Nat.zero_add] at h
      simp [replaceFirstSeg, hts, ih h]

/-- Structure of the replacement: either the input has no match and is
returned unchanged, or exactly the leftmost match (no earlier position
matches) is spliced out and replaced by `/originals/`. -/
theorem replaceFirstSeg_cases (cs : List Char) :
    (countSeg cs = 0 ∧ replaceFirstSeg cs = cs) ∨
      ∃ pre ds tail, cs = pre ++ '/' :: ds ++ 'x' :: '/' :: tail ∧ ds ≠ [] ∧
        (∀ d ∈ ds, d.isDigit = true) ∧
        (∀ i < pre.length, trySeg (cs.drop i) = none) ∧
        replaceFirstSeg cs = pre ++ ("/originals/".toList ++ tail) := by
  induction cs with
  | nil => exact Or.inl ⟨rfl, rfl⟩
  | cons c cs ih =>
    cases hts : trySeg (c :: cs) with
    | some tail =>
      right
      rcases trySeg_some_inv hts with ⟨ds, heq, hne, hdig⟩
      refine ⟨[], ds, tail, by simpa using heq, hne, hdig, ?_, ?_⟩
      · intro i hi
        simp at hi
      · simp [replaceFirstSeg, hts]
    | none =>
      rcases ih with ⟨hcnt, hid⟩ | ⟨pre, ds, tail, heq, hne, hdig, hpre, hrep⟩
      · left
        constructor
        · simp [countSeg, hts, hcnt]
        · simp [replaceFirstSeg, hts, hid]
      · right
        refine ⟨c :: pre, ds, tail, by simp [heq], hne, hdig, ?_, ?_⟩
        · intro i hi
          cases i with
          | zero => simpa using hts
          | succ j =>
            simp only [List.drop_succ_cons]
            exact hpre j (by simpa using hi)
        · simp [replaceFirstSeg, hts, hrep]

/-- A suffix of a match-free list is match-free. -/
theorem countSeg_append_zero {xs ys : List Char}
    (h : countSeg (xs ++ ys) = 0) : countSeg ys = 0 := by
  induction xs with
  | nil => exact h
  | cons x xs ih =>
    rw [List.cons_append] at h
    unfold countSeg at h
    exact ih (by omega)

/-- The replacement text creates no match before its final slash. -/
theorem countSeg_repl (tail : List Char) :
    countSeg ("/originals/".toList ++ tail) = countSeg ('/' :: tail) := by
  have h1 : ∀ l : List Char, trySeg ('/' :: 'o' :: l) = none := fun _ => rfl
  have h2 : ∀ (c : Char) (l : List Char), c ≠ '/' → trySeg (c :: l) = none := by
    intro c l hc
    simp [trySeg, hc]
  show countSeg ('/' :: 'o' :: 'r' :: 'i' :: 'g' :: 'i' :: 'n' :: 'a' :: 'l' :: 's' :: '/' :: tail) = _
  simp only [countSeg, h1, h2 'o' _ (by decide), h2 'r' _ (by decide),
    h2 'i' _ (by decide), h2 'g' _ (by decide), h2 'n' _ (by decide),
    h2 'a' _ (by decide), h2 'l' _ (by decide), h2 's' _ (by decide)]
  simp


/-- When the input has at most one match, the replaced string has none:
`/originals/` contains no digits, and a match spilling over its opening
slash would force a second match in the original. -/
theorem countSeg_replace_zero {cs : List Char} (h : countSeg cs ≤ 1) :
    countSeg (replaceFirstSeg cs) = 0 := by
  induction cs with
  | nil => rfl
  | cons c cs ih =>
    cases hts : trySeg (c :: cs) with
    | some tail =>
      have hrep : replaceFirstSeg (c :: cs) = "/originals/".toList ++ tail := by
        simp [replaceFirstSeg, hts]
      rcases trySeg_some_inv hts with ⟨ds, heq, hne, hdig⟩
      have hcnt : countSeg cs = 0 := by
        unfold countSeg at h
        simp only [hts, Option.isSome_some, if_true] at h
        omega
      have hcs : cs = ds ++ 'x' :: '/' :: tail := by
        rw [List.cons_append] at heq
        injection heq with h1 h2
      have hsuffix : countSeg ('/' :: tail) = 0 := by
        refine @countSeg_append_zero (ds ++ ['x']) ('/' :: tail) ?_
        have : (ds ++ ['x']) ++ '/' :: tail = ds ++ 'x' :: '/' :: tail := by
          simp
        rw [this, ← hcs]
        exact hcnt
      rw [hrep, countSeg_repl]
      exact hsuffix
    | none =>
      have hrep : replaceFirstSeg (c :: cs) = c :: replaceFirstSeg cs := by
        simp [replaceFirstSeg, hts]
      have hle : countSeg cs ≤ 1 := by
        unfold countSeg at h
        omega
      have ihz := ih hle
      rw [hrep]
      unfold countSeg
      rw [ihz]
      suffices hnone : trySeg (c :: replaceFirstSeg cs) = none by simp [hnone]
      rcases replaceFirstSeg_cases cs with ⟨-, hcid⟩ |
        ⟨pre, ds, tail, hceq, hdne, hddig, -, hcrep⟩
      · rw [hcid]; exact hts
      · rw [hcrep]
        by_contra hsome
        rcases Option.ne_none_iff_exists'.mp hsome with ⟨t', ht'⟩
        rcases trySeg_some_inv ht' with ⟨es, heq2, hesne, hesdig⟩
        have hREPL : "/originals/".toList =
            '/' :: ('o' :: 'r' :: 'i' :: 'g' :: 'i' :: 'n' :: 'a' :: 'l' :: 's' :: []) ++ ['/'] := rfl
        rw [hREPL] at heq2
        simp only [List.cons_append, List.append_assoc, List.nil_append] at heq2
        injection heq2 with hc htail2
        subst hc
        rcases List.append_eq_append_iff.mp htail2 with ⟨a1, ha1, ha2⟩ | ⟨c1, hc1, hc2⟩
        · cases a1 with
          | nil =>
            simp only [List.nil_append] at ha2
            injection ha2 with hbad
            exact absurd hbad (by decide)
          | cons z a2 =>
            have hz : z ∈ es := by
              rw [ha1]
              exact List.mem_append_right _ (List.mem_cons_self z a2)
            have hzd := hesdig z hz
            rw [List.cons_append] at ha2
            injection ha2 with hbad
            rw [← hbad] at hzd
            exact absurd hzd (by decide)
        · cases c1 with
          | nil =>
            simp only [List.nil_append] at hc2
            injection hc2 with hbad
            exact absurd hbad (by decide)
          | cons w c2 =>
            rw [List.cons_append] at hc2
            injection hc2 with hw hc2'
            subst hw
            cases c2 with
            | nil =>
              simp only [List.nil_append] at hc2'
              have hpre : pre = es ++ ['x'] := hc1
              have hshape : ('/' : Char) :: cs =
                  '/' :: es ++ 'x' :: '/' :: (ds ++ 'x' :: '/' :: tail) := by
                rw [hceq, hpre]
                simp
              rw [hshape, trySeg_shape hesne hesdig] at hts
              cases hts
            | cons y c3 =>
              rw [List.cons_append] at hc2'
              injection hc2' with hy hc2''
              have hpre : pre = es ++ 'x' :: '/' :: c3 := by
                rw [hc1, ← hy]
              have hshape : ('/' : Char) :: cs =
                  '/' :: es ++ 'x' :: '/' :: (c3 ++ '/' :: ds ++ 'x' :: '/' :: tail) := by
                rw [hceq, hpre]
                simp
              rw [hshape, trySeg_shape hesne hesdig] at hts
              cases hts


/-- Rebuilding a string from its characters is the identity. -/
theorem string_mk_toList (s : String) : String.mk s.toList = s := by
  cases s
  rfl

/-- C10: `upgradeImageQuality` replaces only the first (leftmost) path
segment of the form `/<digits>x/` with `/originals/`; on a url with no
such segment it returns its input unchanged; and on a url with at most
one such segment it is idempotent. -/
theorem upgradeImageQuality_first_segment_only (url : String) :
    ((countSeg url.toList = 0 ∧ replaceFirstSeg url.toList = url.toList) ∨
      ∃ pre ds tail, url.toList = pre ++ '/' :: ds ++ 'x' :: '/' :: tail ∧
        ds ≠ [] ∧ (∀ d ∈ ds, d.isDigit = true) ∧
        (∀ i < pre.length, trySeg (url.toList.drop i) = none) ∧
        replaceFirstSeg url.toList = pre ++ ("/originals/".toList ++ tail))
    ∧ (countSeg url.toList = 0 → upgradeImageQuality url = url)
    ∧ (countSeg url.toList ≤ 1 →
        upgradeImageQuality (upgradeImageQuality url) = upgradeImageQuality url) := by
  refine ⟨replaceFirstSeg_cases url.toList, ?_, ?_⟩
  · intro h0
    unfold upgradeImageQuality
    by_cases hurl : url = ""
    · rw [if_pos hurl]
    · rw [if_neg hurl, replaceFirstSeg_id h0, string_mk_toList]
  · intro h1
    by_cases hurl : url = ""
    · subst hurl
      rfl
    · have h2 : upgradeImageQuality url = String.mk (replaceFirstSeg url.toList) := by
        unfold upgradeImageQuality
        rw [if_neg hurl]
      rw [h2]
      by_cases hse : String.mk (replaceFirstSeg url.toList) = ""
      · rw [hse]
        rfl
      · have h3 : upgradeImageQuality (String.mk (replaceFirstSeg url.toList)) =
            String.mk (replaceFirstSeg (String.mk (replaceFirstSeg url.toList)).toList) := by
          unfold upgradeImageQuality
          rw [if_neg hse]
        rw [h3]
        have htl : (String.mk (replaceFirstSeg url.toList)).toList =
            replaceFirstSeg url.toList := rfl
        rw [htl, replaceFirstSeg_id (countSeg_replace_zero h1)]

/-- Witness: one sized segment is upgraded, and the theorem's
idempotence applies to the result. -/
theorem upgradeImageQuality_first_segment_only_witness :
    upgradeImageQuality "https://i.pinimg.com/736x/ab.jpg" =
      "https://i.pinimg.com/originals/ab.jpg" ∧
    upgradeImageQuality (upgradeImageQuality "https://i.pinimg.com/736x/ab.jpg") =
      upgradeImageQuality "https://i.pinimg.com/736x/ab.jpg" := by
  constructor
  · decide
  · exact (upgradeImageQuality_first_segment_only
      "https://i.pinimg.com/736x/ab.jpg").2.2 (by decide)


/-! Page model and strategy parsers.  A fetched page is modelled as the
cheerio selections the strategies use: the script elements in document
order (id / src attributes and body text), the meta elements, and the
document title.  `JSON.parse` and the network are boundary functions
supplied by a `World`; every universally quantified theorem therefore
also covers the real parser and transport. -/

/-- A `<script>` element. -/
structure ScriptEl where
  idAttr : Option String := none
  srcAttr : Option String := none
  body : String := ""
deriving DecidableEq, Repr

/-- A `<meta>` element with its `property` / `name` / `content`. -/
structure MetaEl where
  prop : Option String := none
  nameAttr : Option String := none
  content : Option String := none
deriving DecidableEq, Repr

/-- The parsed page (`cheerio.load(html)`), restricted to the element
kinds the strategies select on. -/
structure Doc where
  scripts : List ScriptEl := []
  metas : List MetaEl := []
  docTitle : String := ""
deriving DecidableEq, Repr

/-- `$('script:not([src])')` in document order. -/
def inlineScripts (d : Doc) : List ScriptEl :=
  d.scripts.filter (fun s => s.srcAttr.isNone)

/-- `$('#id').html()`: the first element carrying the id (in this model
only scripts carry ids, which is how Pinterest serves `__PWS_DATA__`). -/
def scriptById (d : Doc) (i : String) : Option ScriptEl :=
  d.scripts.find? (fun s => s.idAttr == some i)

/-- A meta-tag selector: `meta[property="p"]` or `meta[name="n"]`. -/
inductive MetaSel where
  | byProp (p : String)
  | byName (n : String)
deriving DecidableEq, Repr

/-- Selector match on one element. -/
def metaMatches (sel : MetaSel) (m : MetaEl) : Bool :=
  match sel with
  | .byProp p => m.prop == some p
  | .byName n => m.nameAttr == some n

/-- `$(sel).attr('content')`: the first matching element's content. -/
def metaContent (d : Doc) (sel : MetaSel) : Option String :=
  (d.metas.find? (metaMatches sel)).bind (·.content)

/-- The `get` helper of `extractFromMetaTags`: first selector whose
first match has truthy (non-empty) content. -/
def metaGet (d : Doc) : List MetaSel → Option String
  | [] => none
  | sel :: rest =>
    match metaContent d sel with
    | some v => if v = "" then metaGet d rest else some v
    | none => metaGet d rest

/-- Selector lists of `extractFromMetaTags`. -/
def OG_VIDEO_SELECTORS : List MetaSel :=
  [.byProp "og:video:secure_url", .byProp "og:video:url", .byProp "og:video",
    .byName "twitter:player:stream"]

/-- Image selectors of `extractFromMetaTags`. -/
def OG_IMAGE_SELECTORS : List MetaSel :=
  [.byProp "og:image", .byName "twitter:image:src", .byName "twitter:image"]

/-- Title selectors of `extractFromMetaTags`. -/
def TITLE_SELECTORS : List MetaSel :=
  [.byProp "og:title", .byName "twitter:title"]

/-- Leftmost replacement of a literal pattern (`String.replace` with a
string first argument replaces only the first occurrence). -/
def replaceFirstLit : List Char → List Char → List Char → List Char
  | [], _, _ => []
  | c :: cs, pat, repl =>
    if pat.isPrefixOf (c :: cs) then repl ++ (c :: cs).drop pat.length
    else c :: replaceFirstLit cs pat repl

/-- Title resolution of `extractFromMetaTags`: og/twitter title, else the
document title with the first `" | Pinterest"` removed and trimmed,
else `Pinterest`. -/
def metaTitle (d : Doc) : String :=
  match metaGet d TITLE_SELECTORS with
  | some t => t
  | none =>
    let t := jsTrim (String.mk
      (replaceFirstLit d.docTitle.toList " | Pinterest".toList []))
    if t = "" then "Pinterest" else t

/-- Lowercase hexadecimal digit (the character class of the hash regex,
which has no `i` flag). -/
def isHexLower (c : Char) : Bool :=
  c.isDigit || ('a' ≤ c ∧ c ≤ 'f')

/-- Head match of the hash pattern: a slash, exactly 32 lowercase hex
characters, then a dot; yields the hash. -/
def hashAt (cs : List Char) : Option (List Char) :=
  match cs with
  | [] => none
  | c :: rest =>
    if c = '/' then
      let h := rest.take 32
      if h.length = 32 ∧ h.all isHexLower then
        match rest.drop 32 with
        | '.' :: _ => some h
        | _ => none
      else none
    else none

/-- Leftmost hash match in a url. -/
def findHash : List Char → Option (List Char)
  | [] => none
  | c :: cs =>
    match hashAt (c :: cs) with
    | some h => some h
    | none => findHash cs

/-- Case-insensitive literal prefix match (the originals pattern carries
the `i` flag). -/
def ciPrefix : List Char → List Char → Bool
  | [], _ => true
  | _ :: _, [] => false
  | p :: ps, c :: cs => (lowerChar c == lowerChar p) && ciPrefix ps cs

/-- Match of the originals pattern at the head: the literal part, then
one or more letters (`[a-z]+` under `i`), greedily; yields `match[0]`. -/
def matchOriginalsAt (pat cs : List Char) : Option (List Char) :=
  if ciPrefix pat cs then
    let rest := cs.drop pat.length
    let letters := rest.takeWhile (fun c => 'a' ≤ lowerChar c ∧ lowerChar c ≤ 'z')
    if letters = [] then none
    else some (cs.take pat.length ++ letters)
  else none

/-- Leftmost match of the originals pattern in the raw page text. -/
def findOriginalsIn (pat : List Char) : List Char → Option (List Char)
  | [] => none
  | c :: cs =>
    match matchOriginalsAt pat (c :: cs) with
    | some m => some m
    | none => findOriginalsIn pat cs

/-- Model of `findOriginalImageInHtml` (`src/utils/pinterest.js:905-919`):
extract the 32-hex content hash from the sized url, then search the raw
page text for an `i.pinimg.com/originals/` url with the hash sharded
into its first three two-character segments. -/
def findOriginalImageInHtml (html ogImageUrl : String) : Option String :=
  if ogImageUrl = "" then none
  else
    match findHash ogImageUrl.toList with
    | none => none
    | some h =>
      let pat := "https://i.pinimg.com/originals/".toList ++
        h.take 2 ++ '/' :: ((h.drop 2).take 2) ++ '/' :: ((h.drop 4).take 2) ++
        '/' :: h ++ ['.']
      match findOriginalsIn pat html.toList with
      | some m => some (String.mk m)
      | none => none

/-- Model of `extractFromMetaTags` (`src/utils/pinterest.js:1020-1060`). -/
def extractFromMetaTags (d : Doc) (html : String) : Option MediaResult :=
  let videoUrl := metaGet d OG_VIDEO_SELECTORS
  let ogImageUrl := metaGet d OG_IMAGE_SELECTORS
  let title := metaTitle d
  match videoUrl with
  | some vu => some ⟨.video, vu, ogImageUrl, title⟩
  | none =>
    match ogImageUrl with
    | some iu =>
      let originalsUrl :=
        match findOriginalImageInHtml html iu with
        | some o => o
        | none => upgradeImageQuality iu
      some ⟨if gifUrl originalsUrl then .gif else .image, originalsUrl,
        some iu, title⟩
    | none => none


/-- First pin object of a collection that converts to a media result. -/
def firstPinMedia : List JValue → Option MediaResult
  | [] => none
  | p :: rest =>
    match pinObjectToMedia p with
    | some r => some r
    | none => firstPinMedia rest

/-- The redux-script scan of `extractFromReduxState`: first inline script
whose trimmed body starts with a brace, mentions `initialReduxState`,
parses, and carries a truthy `initialReduxState` field. -/
def findReduxState (parse : String → Option JValue) :
    List ScriptEl → Option JValue
  | [] => none
  | s :: rest =>
    let src := jsTrim s.body
    if jsStartsWith src "\x7b" && hasSub src "initialReduxState" then
      match parse src with
      | some j =>
        match jget? j "initialReduxState" with
        | some st =>
          if isTruthy st then some st else findReduxState parse rest
        | none => findReduxState parse rest
      | none => findReduxState parse rest
    else findReduxState parse rest

/-- `entry?.data ?? entry` of the `PinResource` cache walk. -/
def entryToPin (entry : JValue) : JValue :=
  match entry with
  | .obj f =>
    match f.lookup "data" with
    | some .null => entry
    | some v => v
    | none => entry
  | _ => entry

/-- Model of `extractFromReduxState` (`src/utils/pinterest.js:791-830`):
locate the redux store, then try `pins` (objects only, not arrays) and
the `resources.PinResource` cache. -/
def extractFromReduxState (parse : String → Option JValue) (d : Doc) :
    Option MediaResult :=
  match findReduxState parse (inlineScripts d) with
  | none => none
  | some st =>
    let fromPins : Option MediaResult :=
      match jget? st "pins" with
      | some (.obj pf) => firstPinMedia (pf.map Prod.snd)
      | _ => none
    match fromPins with
    | some r => some r
    | none =>
      match jchain (jget? st "resources") "PinResource" with
      | some pr =>
        if isComposite pr then firstPinMedia ((jvalues pr).map entryToPin)
        else none
      | none => none

/-- Position of the leftmost occurrence of `pat` (JavaScript `indexOf`). -/
def findSubPos (pat : List Char) : List Char → Option Nat
  | [] => if pat.isPrefixOf ([] : List Char) then some 0 else none
  | c :: cs =>
    if pat.isPrefixOf (c :: cs) then some 0
    else (findSubPos pat cs).map (· + 1)

/-- Position of the rightmost occurrence of `pat` (`lastIndexOf`). -/
def lastSubPos (pat : List Char) : List Char → Option Nat
  | [] => if pat.isPrefixOf ([] : List Char) then some 0 else none
  | c :: cs =>
    match lastSubPos pat cs with
    | some i => some (i + 1)
    | none => if pat.isPrefixOf (c :: cs) then some 0 else none

/-- Recognize `MARKER\s*=` at the head and return what follows the `=`
(the first `=` at or after the match start is the matched one, since
neither the marker nor whitespace contains `=`). -/
def afterMarkerEq (m cs : List Char) : Option (List Char) :=
  if m.isPrefixOf cs then
    match (cs.drop m.length).dropWhile jsWsp with
    | '=' :: rest => some rest
    | _ => none
  else none

/-- The alternation `(__PWS_INITIAL_DATA__|__PWS_DATA__)\s*=` at the
head (the two markers can never both match at one position). -/
def pwsAssignAt (cs : List Char) : Option (List Char) :=
  match afterMarkerEq "__PWS_INITIAL_DATA__".toList cs with
  | some r => some r
  | none => afterMarkerEq "__PWS_DATA__".toList cs

/-- Leftmost assignment match (`String.search` of the pattern). -/
def pwsScan : List Char → Option (List Char)
  | [] => none
  | c :: cs =>
    match pwsAssignAt (c :: cs) with
    | some r => some r
    | none => pwsScan cs

/-- The candidate JSON text of the window-assignment form: everything
after the `=`, trimmed, cut at the first `;` (the leftmost match of
`/;[\s\S]*$/`). -/
def pwsJsonStr (body : String) : Option String :=
  match pwsScan body.toList with
  | some rest =>
    some (String.mk ((jsTrimL rest).takeWhile (fun c => c ≠ ';')))
  | none => none

/-- Scan of the window-assignment form over all scripts: the loop breaks
only once `data` is truthy, so a falsy parse keeps scanning and a final
falsy `data` fails the `!data` test. -/
def pwsAssignData (parse : String → Option JValue) :
    List ScriptEl → Option JValue
  | [] => none
  | s :: rest =>
    match pwsJsonStr s.body with
    | some js =>
      match parse js with
      | some j => if isTruthy j then some j else pwsAssignData parse rest
      | none => pwsAssignData parse rest
    | none => pwsAssignData parse rest

/-- `firstString`: first entry that is a string with non-blank trim,
returned untrimmed, else the fallback. -/
def firstString (arr : List JValue) (fallback : String) : String :=
  match arr.find? (fun v =>
      match v with
      | .str s => jsTrim s ≠ ""
      | _ => false) with
  | some (.str s) => s
  | _ => fallback

/-- Thumbnail loop of `extractFromPWSData`: first `images` candidate
`pickBestImage` accepts (ending falsy when all fail). -/
def firstImageUrl : List JValue → Option JValue
  | [] => none
  | i :: rest =>
    match pickBestImage i with
    | some u => some u
    | none => firstImageUrl rest

/-- Video phase of `extractFromPWSData`. -/
def pwsVideo (data : JValue) : Option MediaResult :=
  match firstVideoIn (deepFindT "video_list" data) with
  | some best =>
    let thumbnail := firstImageUrl (deepFindT "images" data)
    let title := firstString (deepFindT "title" data) "Pinterest Video"
    some ⟨.video, best.url, asStr? thumbnail, title⟩
  | none => none

/-- Image phase of `extractFromPWSData`. -/
def pwsImage (data : JValue) : Option MediaResult :=
  match firstImageUrl (deepFindT "images" data) with
  | some (.str s) =>
    let title := firstString (deepFindT "title" data) "Pinterest Image"
    some ⟨if gifUrl s then .gif else .image, s, some s, title⟩
  | some _ => none
  | none => none

/-- Model of `extractFromPWSData` (`src/utils/pinterest.js:713-777`).
The `html` argument of the source is unused by its body; the inline
`#__PWS_DATA__` form is taken when it parses to a truthy value (a falsy
`data` lets the window-assignment loop run and the final `!data` check
fail), then the window-assignment scan over all scripts. -/
def extractFromPWSData (parse : String → Option JValue) (d : Doc) :
    Option MediaResult :=
  let inlineData : Option JValue :=
    match scriptById d "__PWS_DATA__" with
    | some s =>
      if s.body = "" then none
      else
        match parse (jsTrim s.body) with
        | some j => if isTruthy j then some j else none
        | none => none
    | none => none
  let data? :=
    match inlineData with
    | some j => some j
    | none => pwsAssignData parse d.scripts
  match data? with
  | none => none
  | some data =>
    match pwsVideo data with
    | some r => some r
    | none => pwsImage data


/-- The relay marker, opening quote included. -/
def RELAY_MARKER : String := "__PWS_RELAY_REGISTER_COMPLETED_REQUEST__(\""

/-- Quality-specific MP4 keys of `extractFromRelayScripts`. -/
def MP4_QUALITY_KEYS : List String :=
  ["videoList1080P", "videoList720P", "videoList480P", "videoList360P",
    "videoList240P", "videoList"]

/-- HLS fallback keys of `extractFromRelayScripts`. -/
def HLS_KEYS : List String :=
  ["v_hlsv4_video_list", "videoListMobile", "videoList"]

/-- MP4 entry loop: first truthy string url not referencing `.m3u8`. -/
def relayEntryMp4 : List JValue → Option String
  | [] => none
  | e :: rest =>
    match entryUrl? e with
    | some u => if hasSub u ".m3u8" then relayEntryMp4 rest else some u
    | none => relayEntryMp4 rest

/-- HLS entry loop: first truthy string url, `.m3u8` allowed. -/
def relayEntryHls : List JValue → Option String
  | [] => none
  | e :: rest =>
    match entryUrl? e with
    | some u => some u
    | none => relayEntryHls rest

/-- MP4 scan over the search results of one key. -/
def relayVlMp4 : List JValue → Option String
  | [] => none
  | vl :: rest =>
    if isTruthy vl ∧ isComposite vl then
      match relayEntryMp4 (jvalues vl) with
      | some u => some u
      | none => relayVlMp4 rest
    else relayVlMp4 rest

/-- HLS scan over the search results of one key. -/
def relayVlHls : List JValue → Option String
  | [] => none
  | vl :: rest =>
    if isTruthy vl ∧ isComposite vl then
      match relayEntryHls (jvalues vl) with
      | some u => some u
      | none => relayVlHls rest
    else relayVlHls rest

/-- MP4 key loop of `extractFromRelayScripts`. -/
def relayMp4Keys (json : JValue) : List String → Option String
  | [] => none
  | k :: ks =>
    match relayVlMp4 (deepFindT k json) with
    | some u => some u
    | none => relayMp4Keys json ks

/-- HLS key loop of `extractFromRelayScripts`. -/
def relayHlsKeys (json : JValue) : List String → Option String
  | [] => none
  | k :: ks =>
    match relayVlHls (deepFindT k json) with
    | some u => some u
    | none => relayHlsKeys json ks

/-- Result assembly from one parsed relay response. -/
def relayFromJson (d : Doc) (json : JValue) : Option MediaResult :=
  let thumbnail : Option String :=
    match (deepFindT "thumbnail" json).find? (fun t =>
        match t with
        | .str s => hasSub s "pinimg.com"
        | _ => false) with
    | some (.str s) => some s
    | _ =>
      match metaContent d (.byProp "og:image") with
      | some c => if c = "" then none else some c
      | none => none
  let title : String :=
    match ((deepFindT "pinTitle" json) ++ (deepFindT "description" json)).find?
        (fun t =>
          match t with
          | .str s => jsTrim s ≠ ""
          | _ => false) with
    | some (.str s) => s
    | _ => "Pinterest Video"
  match relayMp4Keys json MP4_QUALITY_KEYS with
  | some u => some ⟨.video, u, thumbnail, title⟩
  | none =>
    match relayHlsKeys json HLS_KEYS with
    | some u => some ⟨.video, u, thumbnail, title⟩
    | none => none

/-- One relay script: find the marker, the end of the url-encoded first
argument (the first quote-comma after the marker), the second argument
up to the last closing-call token (else the last closing brace), parse
and search it. -/
def relayScript (parse : String → Option JValue) (d : Doc) (body : String) :
    Option MediaResult :=
  let cs := body.toList
  match findSubPos RELAY_MARKER.toList cs with
  | none => none
  | some mIdx =>
    match findSubPos "\",".toList (cs.drop (mIdx + RELAY_MARKER.toList.length)) with
    | none => none
    | some rel =>
      let secondArgRaw := cs.drop (mIdx + RELAY_MARKER.toList.length + rel + 2)
      let jsonChars :=
        match lastSubPos "\x7d);".toList secondArgRaw with
        | some ci => secondArgRaw.take (ci + 1)
        | none =>
          match lastSubPos ['\x7d'] secondArgRaw with
          | some bi => secondArgRaw.take (bi + 1)
          | none => secondArgRaw.take 0
      match parse (String.mk jsonChars) with
      | none => none
      | some json => relayFromJson d json

/-- Scan over the inline scripts, stopping at the first result. -/
def relayScan (parse : String → Option JValue) (d : Doc) :
    List ScriptEl → Option MediaResult
  | [] => none
  | s :: rest =>
    if hasSub s.body RELAY_MARKER then
      match relayScript parse d s.body with
      | some r => some r
      | none => relayScan parse d rest
    else relayScan parse d rest

/-- Model of `extractFromRelayScripts` (`src/utils/pinterest.js:935-1012`). -/
def extractFromRelayScripts (parse : String → Option JValue) (d : Doc) :
    Option MediaResult :=
  relayScan parse d (inlineScripts d)


/-- Pin-id characters of `extractPinId` (regex class alnum, `_`, `-`). -/
def isPinIdChar (c : Char) : Bool :=
  c.isAlpha || c.isDigit || c = '_' || c = '-'

/-- Head match of `\/pin\/([a-zA-Z0-9_-]+)`: the capture is the maximal
id-character run after `/pin/`; the trailing optional slash does not
affect the capture. -/
def pinIdAt (cs : List Char) : Option String :=
  if ("/pin/".toList).isPrefixOf cs then
    let idc := (cs.drop 5).takeWhile isPinIdChar
    if idc = [] then none else some (String.mk idc)
  else none

/-- Leftmost pin-id match. -/
def extractPinIdL : List Char → Option String
  | [] => none
  | c :: cs =>
    match pinIdAt (c :: cs) with
    | some s => some s
    | none => extractPinIdL cs

/-- Model of `extractPinId` (`src/utils/pinterest.js:1070-1073`). -/
def extractPinId (url : String) : Option String :=
  extractPinIdL url.toList

/-- Head match of `csrftoken=([^;]+)`: at least one non-semicolon
character must follow, else scanning continues at later positions. -/
def csrfAt (cs : List Char) : Option String :=
  if ("csrftoken=".toList).isPrefixOf cs then
    let tok := (cs.drop 10).takeWhile (fun c => c ≠ ';')
    if tok = [] then none else some (String.mk tok)
  else none

/-- Leftmost CSRF-token match. -/
def csrfScan : List Char → Option String
  | [] => none
  | c :: cs =>
    match csrfAt (c :: cs) with
    | some t => some t
    | none => csrfScan cs

/-- CSRF extraction of `extractFromApi`: the matched token or `''`. -/
def csrfFromCookies (cookies : String) : String :=
  (csrfScan cookies.toList).getD ""

/-- Model of `extractFromApi` (`src/utils/pinterest.js:1089-1125`).  The
transport is a boundary function from (pin id, csrf token, cookie
string) to the response JSON or a network error; the `catch` branch maps
every error to `null`, and a response without a truthy
`resource_response.data` also yields `null`. -/
def extractFromApi (pinId cookies : String)
    (api : String → String → String → Except String JValue) :
    Option MediaResult :=
  let csrfToken := csrfFromCookies cookies
  match api pinId csrfToken cookies with
  | .error _ => none
  | .ok data =>
    match jchain (jget? data "resource_response") "data" with
    | some pin => if isTruthy pin then pinObjectToMedia pin else none
    | none => none

/-- The html, `Set-Cookie` headers and parsed document of one page
fetch.  The document is `cheerio.load` of the html — parsing is a
boundary, so the world supplies the pair together. -/
structure FetchedPage where
  html : String := ""
  setCookies : List String := []
  doc : Doc := ⟨[], [], ""⟩

/-- The boundary functions of one extraction: `JSON.parse`, short-link
resolution, the page fetch, and the internal-API transport. -/
structure World where
  parse : String → Option JValue
  resolve : String → Except String String
  fetch : String → Except String FetchedPage
  api : String → String → String → Except String JValue

/-- The error taxonomy of the pipeline (spec section 7): a fatal
short-link resolution error, a transport error from the page fetch, or
the typed unresolved-media error with its severity marker. -/
inductive ExtractErr where
  | resolveError (msg : String)
  | transportError (msg : String)
  | unresolved (msg : String) (statusCode : Nat)
deriving DecidableEq, Repr

/-- The fixed advisory message of the unresolved-media error. -/
def UNRESOLVED_MSG : String :=
  "Could not extract media from this pin. The pin may be private, deleted, or Pinterest may have changed its page structure."

/-- `setCookies.map(c => c.split(';')[0]).join('; ')`. -/
def joinSep (sep : String) : List String → String
  | [] => ""
  | [x] => x
  | x :: xs => x ++ sep ++ joinSep sep xs

/-- Cookie assembly of `fetchPage` (`src/utils/pinterest.js:612-626`). -/
def cookiesFromSetCookies (sc : List String) : String :=
  joinSep "; " (sc.map (fun c => String.mk (c.toList.takeWhile (fun ch => ch ≠ ';'))))

/-- Model of `resolveShortUrl` (`src/utils/pinterest.js:592-606`): any
transport failure is wrapped in the fatal resolution error. -/
def resolveShortUrl (w : World) (url : String) : Except ExtractErr String :=
  match w.resolve url with
  | .ok finalUrl => .ok finalUrl
  | .error m =>
    .error (.resolveError ("Unable to resolve short URL (" ++ url ++ "): " ++ m))

/-- The `/pin\.it\//i` test of the pipeline. -/
def isShortLink (url : String) : Bool :=
  hasSub (String.mk (jsToLowerL url.toList)) "pin.it/"

/-- Step 1 of the pipeline: short links resolve, other urls pass. -/
def resolvedUrl (w : World) (url0 : String) : Except ExtractErr String :=
  if isShortLink url0 then resolveShortUrl w url0 else .ok url0

/-- Model of `extractPinterestMedia` (`src/utils/pinterest.js:1144-1187`):
resolve a short link; fetch page html with its session cookies; then the
strategies in fixed order — internal API (when a pin id parses), redux
state, `__PWS_DATA__`, relay scripts, meta tags — short-circuiting on
the first result; else the typed unresolved error with status 422. -/
def extractPinterestMedia (w : World) (url0 : String) :
    Except ExtractErr MediaResult :=
  match resolvedUrl w url0 with
  | .error e => .error e
  | .ok url =>
    match w.fetch url with
    | .error m => .error (.transportError m)
    | .ok fp =>
      let cookies := cookiesFromSetCookies fp.setCookies
      let apiRes :=
        match extractPinId url with
        | some pid => extractFromApi pid cookies w.api
        | none => none
      match apiRes with
      | some r => .ok r
      | none =>
        match extractFromReduxState w.parse fp.doc with
        | some r => .ok r
        | none =>
          match extractFromPWSData w.parse fp.doc with
          | some r => .ok r
          | none =>
            match extractFromRelayScripts w.parse fp.doc with
            | some r => .ok r
            | none =>
              match extractFromMetaTags fp.doc fp.html with
              | some r => .ok r
              | none => .error (.unresolved UNRESOLVED_MSG 422)

/-- The five strategy results on the fetched artifacts, in the fixed
priority order of the pipeline. -/
def strategyResults (w : World) (url : String) (fp : FetchedPage) :
    List (Option MediaResult) :=
  [ (match extractPinId url with
      | some pid => extractFromApi pid (cookiesFromSetCookies fp.setCookies) w.api
      | none => none),
    extractFromReduxState w.parse fp.doc,
    extractFromPWSData w.parse fp.doc,
    extractFromRelayScripts w.parse fp.doc,
    extractFromMetaTags fp.doc fp.html ]

/-- First non-none element of an ordered list of strategy results. -/
def firstSome : List (Option MediaResult) → Option MediaResult
  | [] => none
  | o :: rest =>
    match o with
    | some r => some r
    | none => firstSome rest

/-- `firstSome` fails exactly when every element is none. -/
theorem firstSome_eq_none_iff {l : List (Option MediaResult)} :
    firstSome l = none ↔ ∀ o ∈ l, o = none := by
  induction l with
  | nil => simp [firstSome]
  | cons o rest ih =>
    cases o with
    | none => simp [firstSome, ih]
    | some r => simp [firstSome]

/-- The pipeline is the first-some of the ordered strategy list, with
the typed unresolved error on exhaustion. -/
theorem extract_run (w : World) (url0 url : String) (fp : FetchedPage)
    (hres : resolvedUrl w url0 = .ok url) (hfetch : w.fetch url = .ok fp) :
    extractPinterestMedia w url0 =
      (match firstSome (strategyResults w url fp) with
        | some r => .ok r
        | none => .error (.unresolved UNRESOLVED_MSG 422)) := by
  unfold extractPinterestMedia strategyResults
  simp only [hres, hfetch]
  cases h0 : (match extractPinId url with
      | some pid => extractFromApi pid (cookiesFromSetCookies fp.setCookies) w.api
      | none => none) with
  | some r => simp [firstSome, h0]
  | none =>
    cases h1 : extractFromReduxState w.parse fp.doc with
    | some r => simp [firstSome, h0, h1]
    | none =>
      cases h2 : extractFromPWSData w.parse fp.doc with
      | some r => simp [firstSome, h0, h1, h2]
      | none =>
        cases h3 : extractFromRelayScripts w.parse fp.doc with
        | some r => simp [firstSome, h0, h1, h2, h3]
        | none =>
          cases h4 : extractFromMetaTags fp.doc fp.html with
          | some r => simp [firstSome, h0, h1, h2, h3, h4]
          | none => simp [firstSome, h0, h1, h2, h3, h4]


/-- C5: for every pin identifier, cookie string and transport, the
internal-API strategy swallows any network failure and returns none
rather than propagating the error, and it likewise returns none on a
malformed response (no truthy `resource_response.data`) — the strategy
is total and never raises. -/
theorem extractFromApi_swallows_failure (pinId cookies : String)
    (api : String → String → String → Except String JValue) :
    (∀ e, api pinId (csrfFromCookies cookies) cookies = .error e →
      extractFromApi pinId cookies api = none) ∧
    (∀ data, api pinId (csrfFromCookies cookies) cookies = .ok data →
      jchain (jget? data "resource_response") "data" = none →
      extractFromApi pinId cookies api = none) ∧
    (∀ data pin, api pinId (csrfFromCookies cookies) cookies = .ok data →
      jchain (jget? data "resource_response") "data" = some pin →
      isTruthy pin = false →
      extractFromApi pinId cookies api = none) := by
  refine ⟨?_, ?_, ?_⟩
  · intro e he
    unfold extractFromApi
    simp only [he]
  · intro data hd hch
    unfold extractFromApi
    simp only [hd, hch]
  · intro data pin hd hch hpt
    unfold extractFromApi
    simp only [hd, hch, hpt]
    simp

/-- Witness: a transport that always fails with a connection error is
swallowed into none for a concrete pin id and cookie string. -/
theorem extractFromApi_swallows_failure_witness :
    extractFromApi "123456" "csrftoken=abc; _b=2"
      (fun _ _ _ => .error "ECONNREFUSED") = none :=
  (extractFromApi_swallows_failure "123456" "csrftoken=abc; _b=2"
      (fun _ _ _ => .error "ECONNREFUSED")).1 "ECONNREFUSED" rfl

/-- A parsed relay response never assembles anything but a video
result. -/
theorem relayFromJson_video {d : Doc} {json : JValue} {r : MediaResult}
    (h : relayFromJson d json = some r) : r.type = .video := by
  unfold relayFromJson at h
  cases hm : relayMp4Keys json MP4_QUALITY_KEYS with
  | some u =>
    simp only [hm] at h
    cases h
    rfl
  | none =>
    simp only [hm] at h
    cases hh : relayHlsKeys json HLS_KEYS with
    | some u =>
      simp only [hh] at h
      cases h
      rfl
    | none =>
      simp only [hh] at h
      cases h

/-- Generic parse-then-search step of one relay script. -/
theorem parse_relay_video {parse : String → Option JValue} {d : Doc}
    {s : String} {r : MediaResult}
    (h : (match parse s with
          | none => none
          | some json => relayFromJson d json) = some r) : r.type = .video := by
  cases hp : parse s with
  | none => exact absurd h (by simp only [hp]; exact fun hc => Option.noConfusion hc)
  | some json =>
    simp only [hp] at h
    exact relayFromJson_video h

/-- One relay script never yields anything but a video result. -/
theorem relayScript_video {parse : String → Option JValue} {d : Doc}
    {body : String} {r : MediaResult}
    (h : relayScript parse d body = some r) : r.type = .video := by
  unfold relayScript at h
  simp only [] at h
  cases h1 : findSubPos RELAY_MARKER.toList body.toList with
  | none => exact absurd h (by simp only [h1]; exact fun hc => Option.noConfusion hc)
  | some mIdx =>
    simp only [h1] at h
    cases h2 : findSubPos "\",".toList
        (body.toList.drop (mIdx + RELAY_MARKER.toList.length)) with
    | none => exact absurd h (by simp only [h2]; exact fun hc => Option.noConfusion hc)
    | some rel =>
      simp only [h2] at h
      exact parse_relay_video h

/-- The script scan preserves the video-only invariant. -/
theorem relayScan_video {parse : String → Option JValue} {d : Doc}
    {r : MediaResult} : ∀ {ss : List ScriptEl},
    relayScan parse d ss = some r → r.type = .video := by
  intro ss
  induction ss with
  | nil => intro h; simp [relayScan] at h
  | cons s rest ih =>
    intro h
    unfold relayScan at h
    by_cases hm : hasSub s.body RELAY_MARKER
    · rw [if_pos hm] at h
      cases hs : relayScript parse d s.body with
      | some r0 =>
        simp only [hs] at h
        cases h
        exact relayScript_video hs
      | none =>
        simp only [hs] at h
        exact ih h
    · rw [if_neg hm] at h
      exact ih h


/-- C9: whenever the relay-script strategy yields a result, that result
has type `video` — the strategy never produces an image or gif result,
so image-only pins fall through to the meta-tag strategy. -/
theorem extractFromRelayScripts_only_video (parse : String → Option JValue)
    (d : Doc) (r : MediaResult)
    (h : extractFromRelayScripts parse d = some r) : r.type = .video := by
  unfold extractFromRelayScripts at h
  exact relayScan_video h

/-- Demo relay payload: a 720p progressive list under a quality key. -/
def relayDemoJson : JValue :=
  .obj [("videoList720P",
    .obj [("V_720P",
      .obj [("url", .str "https://v.pinimg.com/videos/720.mp4")])])]

/-- Demo parse oracle mapping the sliced second argument to the
payload. -/
def relayDemoParse : String → Option JValue :=
  fun s => if s = "J\x7d" then some relayDemoJson else none

/-- Demo document with one inline relay script. -/
def relayDemoDoc : Doc :=
  ⟨[⟨none, none, RELAY_MARKER ++ "q\",J\x7d);"⟩], [], ""⟩

/-- Witness: on a concrete page with one relay script the strategy
yields a result, and by the theorem that result is a video. -/
theorem extractFromRelayScripts_only_video_witness :
    extractFromRelayScripts relayDemoParse relayDemoDoc =
      some ⟨.video, "https://v.pinimg.com/videos/720.mp4", none,
        "Pinterest Video"⟩ ∧
    (⟨.video, "https://v.pinimg.com/videos/720.mp4", none,
        "Pinterest Video"⟩ : MediaResult).type = .video :=
  ⟨by decide,
    extractFromRelayScripts_only_video relayDemoParse relayDemoDoc
      ⟨.video, "https://v.pinimg.com/videos/720.mp4", none, "Pinterest Video"⟩
      (by decide)⟩


/-- `firstSome` skips a none prefix and returns the first some. -/
theorem firstSome_append_none {pre : List (Option MediaResult)}
    {r : MediaResult} {post : List (Option MediaResult)}
    (hpre : ∀ o ∈ pre, o = none) :
    firstSome (pre ++ some r :: post) = some r := by
  induction pre with
  | nil => simp [firstSome]
  | cons o rest ih =>
    have h0 : o = none := hpre o (List.mem_cons_self o rest)
    subst h0
    simp only [List.cons_append, firstSome]
    exact ih (fun o ho => hpre o (List.mem_cons_of_mem _ ho))

/-- C1: on every successfully fetched page the pipeline invokes the
strategies in the fixed priority order internal API, redux state,
`__PWS_DATA__`, relay scripts, meta tags, and returns the first
non-none result; in particular whenever one strategy yields a result
and every higher-priority strategy yields none, the pipeline returns
that strategy's result — even when a lower-priority strategy would have
yielded a different one. -/
theorem extract_priority_order (w : World) (url0 url : String)
    (fp : FetchedPage)
    (hres : resolvedUrl w url0 = .ok url)
    (hfetch : w.fetch url = .ok fp) :
    (∀ r, firstSome (strategyResults w url fp) = some r →
      extractPinterestMedia w url0 = .ok r) ∧
    (∀ pre r post, strategyResults w url fp = pre ++ some r :: post →
      (∀ o ∈ pre, o = none) →
      extractPinterestMedia w url0 = .ok r) := by
  constructor
  · intro r hr
    rw [extract_run w url0 url fp hres hfetch, hr]
  · intro pre r post hsplit hpre
    rw [extract_run w url0 url fp hres hfetch, hsplit,
      firstSome_append_none hpre]

/-- C2: on every successfully fetched page the pipeline fails exactly
when every strategy returns none, and then the failure is the typed
unresolved-media error with the fixed advisory message and the 422
severity marker — never any other error shape. -/
theorem extract_unresolved_error (w : World) (url0 url : String)
    (fp : FetchedPage)
    (hres : resolvedUrl w url0 = .ok url)
    (hfetch : w.fetch url = .ok fp) :
    ((∃ e, extractPinterestMedia w url0 = .error e) ↔
      ∀ o ∈ strategyResults w url fp, o = none) ∧
    (∀ e, extractPinterestMedia w url0 = .error e →
      e = .unresolved UNRESOLVED_MSG 422) := by
  have hrun := extract_run w url0 url fp hres hfetch
  constructor
  · constructor
    · rintro ⟨e, he⟩
      rw [hrun] at he
      cases hfs : firstSome (strategyResults w url fp) with
      | some r =>
        simp only [hfs] at he
        exact absurd he (fun hc => Except.noConfusion hc)
      | none => exact firstSome_eq_none_iff.mp hfs
    · intro hall
      refine ⟨.unresolved UNRESOLVED_MSG 422, ?_⟩
      rw [hrun, firstSome_eq_none_iff.mpr hall]
  · intro e he
    rw [hrun] at he
    cases hfs : firstSome (strategyResults w url fp) with
    | some r =>
      simp only [hfs] at he
      exact absurd he (fun hc => Except.noConfusion hc)
    | none =>
      simp only [hfs] at he
      exact (Except.error.inj he).symm


/-- Demo pin with a direct 720p progressive video list. -/
def pipeDemoPin : JValue :=
  .obj [("videos", .obj [("video_list",
    .obj [("V_720P",
      .obj [("url", .str "https://v.pinimg.com/videos/demo.mp4")])])])]

/-- Demo redux inline-script body. -/
def pipeDemoReduxBody : String := "\x7b\"initialReduxState\":1\x7d"

/-- Demo redux store holding the pin. -/
def pipeDemoStore : JValue := .obj [("pins", .obj [("1", pipeDemoPin)])]

/-- Demo parse oracle for the redux body. -/
def pipeDemoParse : String → Option JValue :=
  fun s =>
    if s = pipeDemoReduxBody then
      some (.obj [("initialReduxState", pipeDemoStore)])
    else none

/-- Demo fetched page: a redux script plus an og:image meta tag, so the
redux and meta strategies would each yield a (different) result. -/
def pipeDemoFp : FetchedPage :=
  ⟨"", [],
    ⟨[⟨none, none, pipeDemoReduxBody⟩],
      [⟨some "og:image", none, some "https://i.pinimg.com/236x/ab.jpg"⟩],
      ""⟩⟩

/-- Demo world: failing API transport, fixed page fetch. -/
def pipeDemoWorld : World :=
  ⟨pipeDemoParse, fun _ => .error "unused", fun _ => .ok pipeDemoFp,
    fun _ _ _ => .error "api down"⟩

/-- Demo input url. -/
def pipeDemoUrl : String := "https://www.pinterest.com/pin/123456/"

/-- The redux strategy's result on the demo page. -/
def pipeDemoVideoRes : MediaResult :=
  ⟨.video, "https://v.pinimg.com/videos/demo.mp4", none, "Pinterest"⟩

/-- The meta strategy's result on the demo page. -/
def pipeDemoImageRes : MediaResult :=
  ⟨.image, "https://i.pinimg.com/originals/ab.jpg",
    some "https://i.pinimg.com/236x/ab.jpg", "Pinterest"⟩

/-- Witness: on the demo page the API strategy fails (none), the redux
strategy yields a video, the meta strategy would yield a different
image, and the pipeline returns the redux video. -/
theorem extract_priority_order_witness :
    strategyResults pipeDemoWorld pipeDemoUrl pipeDemoFp =
      [none] ++ some pipeDemoVideoRes ::
        [none, none, some pipeDemoImageRes] ∧
    pipeDemoVideoRes ≠ pipeDemoImageRes ∧
    extractPinterestMedia pipeDemoWorld pipeDemoUrl = .ok pipeDemoVideoRes :=
  ⟨by decide, by decide,
    (extract_priority_order pipeDemoWorld pipeDemoUrl pipeDemoUrl pipeDemoFp
        rfl rfl).2 [none] pipeDemoVideoRes
      [none, none, some pipeDemoImageRes] (by decide) (by decide)⟩

/-- Demo page with no extractable media at all. -/
def emptyDemoFp : FetchedPage := ⟨"", [], ⟨[], [], ""⟩⟩

/-- Demo world around the empty page, with a failing API transport. -/
def emptyDemoWorld : World :=
  ⟨fun _ => none, fun _ => .error "unused", fun _ => .ok emptyDemoFp,
    fun _ _ _ => .error "api down"⟩

/-- Demo input url for the exhausted pipeline. -/
def emptyDemoUrl : String := "https://www.pinterest.com/pin/987654/"

/-- Witness: on a page with no strategy match of any kind the pipeline
fails with exactly the typed unresolved-media error. -/
theorem extract_unresolved_error_witness :
    extractPinterestMedia emptyDemoWorld emptyDemoUrl =
      .error (.unresolved UNRESOLVED_MSG 422) := by
  obtain ⟨e, he⟩ :=
    (extract_unresolved_error emptyDemoWorld emptyDemoUrl emptyDemoUrl
        emptyDemoFp rfl rfl).1.mpr (by decide)
  rw [he,
    (extract_unresolved_error emptyDemoWorld emptyDemoUrl emptyDemoUrl
        emptyDemoFp rfl rfl).2 e he]


/-- The boundary effects of one browser extraction
(`src/utils/playwrightExtractor.js`): the API transport of the fast
path, each unwrapped awaited step inside the `try` block, and the
captured-data snapshots at the points where the code inspects them.
The capture sets and the API-sniffed best video grow asynchronously
through the response/request handlers, so the world supplies their
values at the first inspection (after navigation) and at the final
inspection (after the interaction phases, whose own failures are all
caught and swallowed). -/
structure BrowserWorld where
  api : String → String → String → Except String JValue
  launch : Except String Unit
  newContext : Except String Unit
  addInitScript : Except String Unit
  newPage : Except String Unit
  goto : Except String Unit
  titleRes : Except String String
  ogImage : Option String
  cap1 : List String
  best1 : Option String
  scrollWait : Except String Unit
  cap2 : List String
  best2 : Option String
  scanFound : List String

/-- The resolution preference of `pickBestCapturedUrl`. -/
def RESOLUTIONS : List String := ["1080", "720", "480", "360", "240"]

/-- First captured url containing a preferred resolution marker. -/
def pickByResolution (urls : List String) : List String → Option String
  | [] => none
  | r :: rs =>
    match urls.find? (fun u => hasSub u r) with
    | some u => some u
    | none => pickByResolution urls rs

/-- The length-descending stable sort's head: the earliest url of
maximal length. -/
def longestUrl : List String → Option String
  | [] => none
  | u :: us =>
    match longestUrl us with
    | none => some u
    | some v => if v.length > u.length then some v else some u

/-- Model of `pickBestCapturedUrl`
(`src/utils/playwrightExtractor.js:228-236`). -/
def pickBestCapturedUrl (urls : List String) : Option String :=
  match pickByResolution urls RESOLUTIONS with
  | some u => some u
  | none => longestUrl urls

/-- `rawTitle.replace(/ \| Pinterest$/i, '').trim()`: drop one
case-insensitive `" | Pinterest"` suffix, then trim. -/
def stripPinterestTitle (raw : String) : String :=
  let cs := raw.toList
  let pat := " | pinterest".toList
  if pat.isSuffixOf (jsToLowerL cs) then
    jsTrim (String.mk (cs.take (cs.length - pat.length)))
  else jsTrim raw

/-- The body of the `try` block after a successful launch
(`src/utils/playwrightExtractor.js:89-218`): context, init script, page
and navigation are unwrapped awaits whose failures propagate; the title
and thumbnail grabs swallow their failures; the scroll wait is the one
unwrapped await of the interaction phases (the play-button and
html-scan phases catch everything); then the captured video url, else
the thumbnail as image/gif, else no result. -/
def browserAfterLaunch (w : BrowserWorld) :
    Except String (Option MediaResult) :=
  match w.newContext with
  | .error e => .error e
  | .ok _ =>
  match w.addInitScript with
  | .error e => .error e
  | .ok _ =>
  match w.newPage with
  | .error e => .error e
  | .ok _ =>
  match w.goto with
  | .error e => .error e
  | .ok _ =>
    let title :=
      match w.titleRes with
      | .ok raw =>
        let t := stripPinterestTitle raw
        if t = "" then "Pinterest Video" else t
      | .error _ => "Pinterest Video"
    let thumbnail := w.ogImage
    let phase1 : Except String Unit :=
      if w.cap1 = [] ∧ w.best1 = none then w.scrollWait else .ok ()
    match phase1 with
    | .error e => .error e
    | .ok _ =>
      let capFinal :=
        if w.cap2 = [] ∧ w.best2 = none then w.scanFound else w.cap2
      let videoUrl :=
        match w.best2 with
        | some u => some u
        | none =>
          if capFinal = [] then none else pickBestCapturedUrl capFinal
      match videoUrl with
      | some u => .ok (some ⟨.video, u, thumbnail, title⟩)
      | none =>
        match thumbnail with
        | some t =>
          .ok (some ⟨if gifUrl t then .gif else .image, t, some t, title⟩)
        | none => .ok none

/-- Observable events of one browser extraction, in order. -/
inductive BEvent where
  | launched
  | closed
  | returned (r : Option MediaResult)
  | threw (msg : String)
deriving DecidableEq, Repr

/-- The fast path of `extractWithBrowser`
(`src/utils/playwrightExtractor.js:63-70`): the internal API result is
short-circuited only when it is a video. -/
def browserFastPath (w : BrowserWorld) (pinUrl : String) :
    Option MediaResult :=
  match extractPinId pinUrl with
  | some pid =>
    match extractFromApi pid "" w.api with
    | some r => if r.type = MediaType.video then some r else none
    | none => none
  | none => none

/-- Model of `extractWithBrowser`
(`src/utils/playwrightExtractor.js:61-222`) as its event trace: the
fast path returns an API video without launching; a launch failure
throws with `browser` still null, so the `finally` closes nothing; once
launched, the `finally` emits the close event before either the normal
return or the propagated error. -/
def extractWithBrowser (w : BrowserWorld) (pinUrl : String) : List BEvent :=
  match browserFastPath w pinUrl with
  | some r => [.returned (some r)]
  | none =>
    match w.launch with
    | .error e => [.threw e]
    | .ok _ =>
      .launched ::
        (match browserAfterLaunch w with
          | .ok r => [.closed, .returned r]
          | .error e => [.closed, .threw e])

/-- C8: on every exit path of `extractWithBrowser` — success,
no-result, or thrown error — a launched browser session is torn down
before the call returns: whenever the trace records a launch, it
records the close, and the whole trace is the launch, then the close,
then the single terminal event (a return or a throw). -/
theorem extractWithBrowser_teardown (w : BrowserWorld) (pinUrl : String)
    (h : BEvent.launched ∈ extractWithBrowser w pinUrl) :
    BEvent.closed ∈ extractWithBrowser w pinUrl ∧
    ∃ t, extractWithBrowser w pinUrl = [.launched, .closed, t] ∧
      ((∃ r, t = .returned r) ∨ (∃ m, t = .threw m)) := by
  cases hf : browserFastPath w pinUrl with
  | some r =>
    simp only [extractWithBrowser, hf] at h
    simp at h
  | none =>
    cases hl : w.launch with
    | error e =>
      simp only [extractWithBrowser, hf, hl] at h
      simp at h
    | ok u =>
      cases hb : browserAfterLaunch w with
      | ok r =>
        simp only [extractWithBrowser, hf, hl, hb]
        exact ⟨by simp, ⟨.returned r, rfl, Or.inl ⟨r, rfl⟩⟩⟩
      | error e =>
        simp only [extractWithBrowser, hf, hl, hb]
        exact ⟨by simp, ⟨.threw e, rfl, Or.inr ⟨e, rfl⟩⟩⟩

/-- Demo browser world: the API fast path fails, the launch succeeds
and the navigation times out. -/
def browserDemoWorld : BrowserWorld :=
  ⟨fun _ _ _ => .error "api down", .ok (), .ok (), .ok (), .ok (),
    .error "TimeoutError: page.goto", .ok "t", none, [], none, .ok (),
    [], none, []⟩

/-- Witness: with a failing navigation the launched browser is still
closed before the error propagates. -/
theorem extractWithBrowser_teardown_witness :
    BEvent.closed ∈
      extractWithBrowser browserDemoWorld
        "https://www.pinterest.com/pin/123/" ∧
    extractWithBrowser browserDemoWorld
        "https://www.pinterest.com/pin/123/" =
      [.launched, .closed, .threw "TimeoutError: page.goto"] :=
  ⟨(extractWithBrowser_teardown browserDemoWorld
      "https://www.pinterest.com/pin/123/" (by decide)).1,
    by decide⟩

end Pin
